import Mathlib

/-!
Verification of the call-analyzer repository.

The Python sources are shallowly embedded below.  Times and scores are
modelled by `ℚ` (the source uses floating point arithmetic on small,
exactly representable values); Python strings are modelled by `String`
with explicit character-level helpers; Python `None`-able fields are
modelled by `Option`.  Python dict truthiness (empty string / `None` are
falsy) is made explicit at each use site.
-/

/-! ### Character and string helpers (models of Python `str` methods) -/

/-- Model of Python `str.lower` restricted to the alphabets that occur in
the repository (ASCII plus the Cyrillic block actually used). -/
def lowerChar (c : Char) : Char :=
  if 65 ≤ c.toNat ∧ c.toNat ≤ 90 then Char.ofNat (c.toNat + 32)
  else if 0x410 ≤ c.toNat ∧ c.toNat ≤ 0x42F then Char.ofNat (c.toNat + 32)
  else if c.toNat = 0x401 then Char.ofNat 0x451
  else c

/-- Model of Python `str.upper` on the same alphabets. -/
def upperChar (c : Char) : Char :=
  if 97 ≤ c.toNat ∧ c.toNat ≤ 122 then Char.ofNat (c.toNat - 32)
  else if 0x430 ≤ c.toNat ∧ c.toNat ≤ 0x44F then Char.ofNat (c.toNat - 32)
  else if c.toNat = 0x451 then Char.ofNat 0x401
  else c

def lowerS (s : String) : String := (s.toList.map lowerChar).asString

def upperS (s : String) : String := (s.toList.map upperChar).asString

/-- Python `str.strip` (drop leading and trailing whitespace). -/
def stripChars (l : List Char) : List Char :=
  ((l.dropWhile Char.isWhitespace).reverse.dropWhile Char.isWhitespace).reverse

def stripS (s : String) : String := (stripChars s.toList).asString

/-- Python `str.rstrip`. -/
def rstripS (s : String) : String :=
  ((s.toList.reverse.dropWhile Char.isWhitespace).reverse).asString

/-- `beginsWith pat l` holds when `pat` is an initial run of `l`. -/
def beginsWith : List Char → List Char → Bool
  | [], _ => true
  | _ :: _, [] => false
  | a :: as, b :: bs => a = b && beginsWith as bs

/-- `containsSeq hay needle`: `needle` occurs contiguously inside `hay`
(model of Python `needle in hay` on strings). -/
def containsSeq (hay needle : List Char) : Bool :=
  match hay with
  | [] => needle.isEmpty
  | _ :: t => beginsWith needle hay || containsSeq t needle

/-- Case-insensitive substring test: model of
`re.compile(re.escape(p), re.IGNORECASE).search(text)` (and of the
`p.lower() in text.lower()` fallback, which has the same semantics). -/
def ciFound (text phrase : String) : Bool :=
  containsSeq (lowerS text).toList (lowerS phrase).toList

/-! ### `core/analyzers.py`: `analyze_script_presence` -/

/-- The `for phrase in required_phrases` loop of `analyze_script_presence`,
processed front to back; returns `(found, missed)`. -/
def analyzeGo (t : String) : List String → List String × List String
  | [] => ([], [])
  | phrase :: rest =>
    let p := stripS phrase
    let r := analyzeGo t rest
    if p = "" then r
    else if ciFound t p then (p :: r.1, r.2)
    else (r.1, p :: r.2)

/-- Embedding of `analyze_script_presence(text, required_phrases)` from
`src/core/analyzers.py`: the input text is stripped, each phrase is
stripped, blank phrases are skipped, and each remaining phrase is matched
case-insensitively as a substring.  The Python dict
`{"found": ..., "missed": ...}` is modelled as a pair. -/
def analyze_script_presence (text : String) (required_phrases : List String) :
    List String × List String :=
  analyzeGo (stripS text) required_phrases

theorem analyzeGo_found (t : String) (phrases : List String) :
    (analyzeGo t phrases).1 =
      (phrases.map stripS).filter (fun p => decide (p ≠ "") && ciFound t p) := by
  induction phrases with
  | nil => rfl
  | cons ph rest ih =>
    by_cases hp : stripS ph = ""
    · simp [analyzeGo, hp, ih]
    · by_cases hf : ciFound t (stripS ph)
      · simp [analyzeGo, hp, hf, ih]
      · simp [analyzeGo, hp, hf, ih]

theorem analyzeGo_missed (t : String) (phrases : List String) :
    (analyzeGo t phrases).2 =
      (phrases.map stripS).filter (fun p => decide (p ≠ "") && !ciFound t p) := by
  induction phrases with
  | nil => rfl
  | cons ph rest ih =>
    by_cases hp : stripS ph = ""
    · simp [analyzeGo, hp, ih]
    · by_cases hf : ciFound t (stripS ph)
      · simp [analyzeGo, hp, hf, ih]
      · simp [analyzeGo, hp, hf, ih]

/-- Claim C9: `analyze_script_presence` partitions exactly the non-blank
phrases: `found` is the ordered list of stripped non-blank phrases that
occur case-insensitively in the (stripped) text, `missed` the ordered list
of those that do not, and no phrase is in both lists. -/
theorem C9_analyze_script_presence_partitions (text : String)
    (phrases : List String) :
    (analyze_script_presence text phrases).1 =
      (phrases.map stripS).filter
        (fun p => decide (p ≠ "") && ciFound (stripS text) p) ∧
    (analyze_script_presence text phrases).2 =
      (phrases.map stripS).filter
        (fun p => decide (p ≠ "") && !ciFound (stripS text) p) ∧
    ∀ p, p ∈ (analyze_script_presence text phrases).1 →
      p ∉ (analyze_script_presence text phrases).2 := by
  refine ⟨analyzeGo_found _ _, analyzeGo_missed _ _, ?_⟩
  intro p hp hq
  rw [analyze_script_presence, analyzeGo_found] at hp
  rw [analyze_script_presence, analyzeGo_missed] at hq
  have h1 := List.of_mem_filter hp
  have h2 := List.of_mem_filter hq
  simp only [Bool.and_eq_true, decide_eq_true_eq, Bool.not_eq_true'] at h1 h2
  exact absurd h1.2 (by simp [h2.2])

/-- Witness for C9 at a concrete input: the found/missed split of two
phrases, one present and one absent. -/
theorem C9_witness :
    (analyze_script_presence "Добрый день, хорошего дня" ["добрый День", " ", "цена"]).1
        = ["добрый День"] ∧
    (analyze_script_presence "Добрый день, хорошего дня" ["добрый День", " ", "цена"]).2
        = ["цена"] ∧
    "добрый День" ∉ (analyze_script_presence "Добрый день, хорошего дня"
        ["добрый День", " ", "цена"]).2 := by
  refine ⟨by decide, by decide, ?_⟩
  exact (C9_analyze_script_presence_partitions "Добрый день, хорошего дня"
    ["добрый День", " ", "цена"]).2.2 "добрый День" (by decide)

/-! ### Generic strict-improvement maximum loop

Both `map_whisper_to_diar` (src/main.py) and `choose_best_script`
(src/bitrix_main.py) track a running best candidate and update it only on
a strict improvement (`>` against the running best, which starts at `0`).
`bestByGo` is that loop; the lemmas characterise it. -/

def bestByGo (score : α → ℚ) : List α → Option α → ℚ → Option α × ℚ
  | [], b, bs => (b, bs)
  | x :: xs, b, bs =>
    if bs < score x then bestByGo score xs (some x) (score x)
    else bestByGo score xs b bs

def bestBy (score : α → ℚ) (l : List α) : Option α × ℚ :=
  bestByGo score l none 0

theorem bestByGo_le (score : α → ℚ) (l : List α) (b : Option α) (bs : ℚ) :
    bs ≤ (bestByGo score l b bs).2 := by
  induction l generalizing b bs with
  | nil => simp [bestByGo]
  | cons x xs ih =>
    by_cases h : bs < score x
    · simp only [bestByGo, if_pos h]
      exact le_trans (le_of_lt h) (ih _ _)
    · simp only [bestByGo, if_neg h]
      exact ih _ _

theorem bestByGo_mem_le (score : α → ℚ) (l : List α) (b : Option α) (bs : ℚ) :
    ∀ x ∈ l, score x ≤ (bestByGo score l b bs).2 := by
  induction l generalizing b bs with
  | nil => intro x hx; cases hx
  | cons y ys ih =>
    intro x hx
    rcases List.mem_cons.mp hx with h | h
    · rw [h]
      by_cases hlt : bs < score y
      · simp only [bestByGo, if_pos hlt]
        exact bestByGo_le score ys _ _
      · simp only [bestByGo, if_neg hlt]
        exact le_trans (le_of_not_lt hlt) (bestByGo_le score ys _ _)
    · by_cases hlt : bs < score y
      · simp only [bestByGo, if_pos hlt]; exact ih _ _ x h
      · simp only [bestByGo, if_neg hlt]; exact ih _ _ x h

theorem bestByGo_spec (score : α → ℚ) (l : List α) (b : Option α) (bs : ℚ) :
    (bestByGo score l b bs = (b, bs) ∧ ∀ x ∈ l, score x ≤ bs) ∨
    (∃ i, ∃ h : i < l.length,
      (bestByGo score l b bs).1 = some (l.get ⟨i, h⟩) ∧
      (bestByGo score l b bs).2 = score (l.get ⟨i, h⟩) ∧
      bs < score (l.get ⟨i, h⟩) ∧
      ∀ j, ∀ hj : j < l.length, j < i →
        score (l.get ⟨j, hj⟩) < score (l.get ⟨i, h⟩)) := by
  induction l generalizing b bs with
  | nil => exact Or.inl ⟨rfl, by intro x hx; cases hx⟩
  | cons x xs ih =>
    by_cases hlt : bs < score x
    · simp only [bestByGo, if_pos hlt]
      rcases ih (some x) (score x) with ⟨heq, hall⟩ | ⟨i, h, h1, h2, h3, h4⟩
      · refine Or.inr ⟨0, by simp, ?_, ?_, hlt, ?_⟩
        · rw [heq]; simp
        · rw [heq]; simp
        · intro j hj hj0; omega
      · refine Or.inr ⟨i + 1, by simpa using Nat.succ_lt_succ h, ?_, ?_, ?_, ?_⟩
        · simpa using h1
        · simpa using h2
        · exact lt_trans hlt (by simpa using h3)
        · intro j hj hji
          cases j with
          | zero => simpa using h3
          | succ j' =>
            have hj' : j' < xs.length := by simpa using hj
            have := h4 j' hj' (by omega)
            simpa using this
    · simp only [bestByGo, if_neg hlt]
      rcases ih b bs with ⟨heq, hall⟩ | ⟨i, h, h1, h2, h3, h4⟩
      · refine Or.inl ⟨heq, ?_⟩
        intro y hy
        rcases List.mem_cons.mp hy with h | h
        · subst h; exact le_of_not_lt hlt
        · exact hall y h
      · refine Or.inr ⟨i + 1, by simpa using Nat.succ_lt_succ h, ?_, ?_, ?_, ?_⟩
        · simpa using h1
        · simpa using h2
        · simpa using h3
        · intro j hj hji
          cases j with
          | zero =>
            have : bs < score (xs.get ⟨i, h⟩) := by simpa using h3
            exact lt_of_le_of_lt (le_of_not_lt hlt) (by simpa using this)
          | succ j' =>
            have hj' : j' < xs.length := by simpa using hj
            have := h4 j' hj' (by omega)
            simpa using this

/-! ### `src/bitrix_main.py`: scripts and `choose_best_script` -/

/-- A sales script as loaded from `scripts/*.json`: a `name` and a phrase
list (`script.get("phrases", [])` is modelled by a plain list field). -/
structure Script where
  name : Option String
  phrases : List String
deriving DecidableEq

/-- `score = len(result["found"]) / max(len(script.get("phrases", [])), 1)`. -/
def scoreOf (full_text : String) (sc : Script) : ℚ :=
  ((analyze_script_presence full_text sc.phrases).1.length : ℚ) /
    ((max sc.phrases.length 1 : ℕ) : ℚ)

/-- The `for script in SCRIPTS` loop of `choose_best_script`, carrying
`best_script`, `best_result` and `best_score`. -/
def chooseGo (ft : String) :
    List Script → Option Script → Option (List String × List String) → ℚ →
      Option Script × Option (List String × List String)
  | [], b, br, _ => (b, br)
  | sc :: rest, b, br, bs =>
    let result := analyze_script_presence ft sc.phrases
    let score : ℚ := ((result.1.length : ℚ)) / ((max sc.phrases.length 1 : ℕ) : ℚ)
    if bs < score then chooseGo ft rest (some sc) (some result) score
    else chooseGo ft rest b br bs

/-- Embedding of `choose_best_script(full_text)` from `src/bitrix_main.py`,
with the global `SCRIPTS` list as a parameter.  Returns
`(best_script, best_result)`; both stay `none` unless some script scores
strictly above the initial `best_score = 0.0`. -/
def choose_best_script (scripts : List Script) (full_text : String) :
    Option Script × Option (List String × List String) :=
  chooseGo full_text scripts none none 0

theorem chooseGo_eq_bestByGo (ft : String) (l : List Script) (b : Option Script)
    (bs : ℚ) :
    chooseGo ft l b (b.map fun sc => analyze_script_presence ft sc.phrases) bs =
      ((bestByGo (scoreOf ft) l b bs).1,
        (bestByGo (scoreOf ft) l b bs).1.map
          fun sc => analyze_script_presence ft sc.phrases) := by
  induction l generalizing b bs with
  | nil => simp [chooseGo, bestByGo]
  | cons sc rest ih =>
    by_cases h : bs < scoreOf ft sc
    · have hs : bs <
          ((analyze_script_presence ft sc.phrases).1.length : ℚ) /
            ((max sc.phrases.length 1 : ℕ) : ℚ) := h
      simp only [chooseGo, bestByGo, if_pos h, if_pos hs]
      have := ih (some sc) (scoreOf ft sc)
      simpa [scoreOf] using this
    · have hs : ¬ bs <
          ((analyze_script_presence ft sc.phrases).1.length : ℚ) /
            ((max sc.phrases.length 1 : ℕ) : ℚ) := h
      simp only [chooseGo, bestByGo, if_neg h, if_neg hs]
      exact ih b bs

theorem choose_best_script_eq (scripts : List Script) (ft : String) :
    choose_best_script scripts ft =
      ((bestBy (scoreOf ft) scripts).1,
        (bestBy (scoreOf ft) scripts).1.map
          fun sc => analyze_script_presence ft sc.phrases) := by
  have := chooseGo_eq_bestByGo ft scripts none 0
  simpa [choose_best_script, bestBy] using this

/-- Example script scoring 1/2 on the text "a b". -/
def exScriptA : Script := ⟨some "s1", ["a", "x"]⟩

/-- Example script scoring 4/5 on the text "a b". -/
def exScriptB : Script := ⟨some "s2", ["a", "b", "a", "b", "x"]⟩

/-- Counterexample to claim C2 as stated: two scripts with equal scores
(both 0) — the first-declared script does NOT win; no script is selected
at all, because the update test `score > best_score` starts from
`best_score = 0.0`. -/
theorem C2_counterexample :
    scoreOf "hello" ⟨some "s1", ["xxx"]⟩ = scoreOf "hello" ⟨some "s2", ["yyy"]⟩ ∧
    (choose_best_script [⟨some "s1", ["xxx"]⟩, ⟨some "s2", ["yyy"]⟩] "hello").1 = none ∧
    (choose_best_script [⟨some "s1", ["xxx"]⟩, ⟨some "s2", ["yyy"]⟩] "hello").1 ≠
      some ⟨some "s1", ["xxx"]⟩ := by
  have e1 : analyze_script_presence "hello" ["xxx"] = ([], ["xxx"]) := by decide
  have e2 : analyze_script_presence "hello" ["yyy"] = ([], ["yyy"]) := by decide
  have hres : (choose_best_script
      [⟨some "s1", ["xxx"]⟩, ⟨some "s2", ["yyy"]⟩] "hello").1 = none := by
    norm_num [choose_best_script, chooseGo, e1, e2]
  refine ⟨by norm_num [scoreOf, e1, e2], hres, by rw [hres]; exact nofun⟩

/-- Claim C2 (amended): `choose_best_script` returns the script with the
strictly highest score provided that score is strictly positive (earlier
scripts beat later ones of equal score, so a winner is strictly better
than every script declared before it and at least as good as every other
script); if every script scores 0 — in particular on ties at 0 — no
script is selected and `(none, none)` is returned. -/
theorem C2_choose_best_script (scripts : List Script) (ft : String) :
    (∀ sc, (choose_best_script scripts ft).1 = some sc →
      0 < scoreOf ft sc ∧
      (choose_best_script scripts ft).2 =
        some (analyze_script_presence ft sc.phrases) ∧
      ∃ i, ∃ h : i < scripts.length, scripts.get ⟨i, h⟩ = sc ∧
        (∀ j, ∀ hj : j < scripts.length, j < i →
          scoreOf ft (scripts.get ⟨j, hj⟩) < scoreOf ft sc) ∧
        (∀ j, ∀ hj : j < scripts.length,
          scoreOf ft (scripts.get ⟨j, hj⟩) ≤ scoreOf ft sc)) ∧
    ((∀ sc ∈ scripts, scoreOf ft sc = 0) →
      choose_best_script scripts ft = (none, none)) := by
  constructor
  · intro sc hsc
    rw [choose_best_script_eq] at hsc
    simp only at hsc
    rcases bestByGo_spec (scoreOf ft) scripts none 0 with ⟨heq, _⟩ |
        ⟨i, h, h1, h2, h3, h4⟩
    · rw [show bestBy (scoreOf ft) scripts = (none, 0) from heq] at hsc
      cases hsc
    · have h1' : (bestBy (scoreOf ft) scripts).1 = some (scripts.get ⟨i, h⟩) := h1
      rw [h1'] at hsc
      have hsc' : scripts.get ⟨i, h⟩ = sc := by
        injection hsc
      subst hsc'
      refine ⟨h3, ?_, i, h, rfl, h4, ?_⟩
      · rw [choose_best_script_eq, h1']; rfl
      · intro j hj
        have := bestByGo_mem_le (scoreOf ft) scripts none 0
          (scripts.get ⟨j, hj⟩) (List.get_mem _ _ _)
        rw [h2] at this
        exact this
  · intro hall
    rw [choose_best_script_eq]
    rcases bestByGo_spec (scoreOf ft) scripts none 0 with ⟨heq, _⟩ |
        ⟨i, h, _, _, h3, _⟩
    · rw [show bestBy (scoreOf ft) scripts = (none, 0) from heq]; rfl
    · have := hall (scripts.get ⟨i, h⟩) (List.get_mem _ _ _)
      rw [this] at h3
      exact absurd h3 (lt_irrefl 0)

/-- Witness for C2 at the spec's 0.5 / 0.8 example: the 0.8-scoring script
wins in both declaration orders, and (by the claim theorem) its score is
strictly positive. -/
theorem C2_witness :
    (choose_best_script [exScriptA, exScriptB] "a b").1 = some exScriptB ∧
    (choose_best_script [exScriptB, exScriptA] "a b").1 = some exScriptB ∧
    scoreOf "a b" exScriptA = 1 / 2 ∧ scoreOf "a b" exScriptB = 4 / 5 ∧
    0 < scoreOf "a b" exScriptB := by
  have eA : analyze_script_presence "a b" ["a", "x"] = (["a"], ["x"]) := by decide
  have eB : analyze_script_presence "a b" ["a", "b", "a", "b", "x"] =
      (["a", "b", "a", "b"], ["x"]) := by decide
  have h1 : (choose_best_script [exScriptA, exScriptB] "a b").1 = some exScriptB := by
    norm_num [choose_best_script, chooseGo, exScriptA, exScriptB, eA, eB]
  have h2 : (choose_best_script [exScriptB, exScriptA] "a b").1 = some exScriptB := by
    norm_num [choose_best_script, chooseGo, exScriptA, exScriptB, eA, eB]
  refine ⟨h1, h2, by norm_num [scoreOf, exScriptA, eA],
    by norm_num [scoreOf, exScriptB, eB],
    ((C2_choose_best_script [exScriptA, exScriptB] "a b").1 exScriptB h1).1⟩

/-! ### `src/main.py`: segments and `map_whisper_to_diar`

A diarization segment dict is modelled by `Seg` (`stop` stands for the
`"end"` key, which is a reserved word here); missing `"speaker"`,
`"text"`, `"role"` keys are `none`.  A whisper segment is `WSeg`, with
the `.get(..., default)` defaults already folded in. -/

structure Seg where
  start : ℚ
  stop : ℚ
  speaker : Option String
  text : Option String
  role : Option String
deriving DecidableEq

structure WSeg where
  start : ℚ
  stop : ℚ
  text : String
deriving DecidableEq

/-- Embedding of `_overlap(a_start, a_end, b_start, b_end)`. -/
def _overlap (a_start a_end b_start b_end : ℚ) : ℚ :=
  max 0 (min a_end b_end - max a_start b_start)

/-- Pair every list element with its position, starting at `i`. -/
def enumFromQ (i : ℕ) : List α → List (ℕ × α)
  | [] => []
  | x :: xs => (i, x) :: enumFromQ (i + 1) xs

theorem length_enumFromQ (i : ℕ) (l : List α) :
    (enumFromQ i l).length = l.length := by
  induction l generalizing i with
  | nil => rfl
  | cons x xs ih => simp [enumFromQ, ih]

theorem get_enumFromQ (i : ℕ) (l : List α) (j : ℕ) (h : j < (enumFromQ i l).length)
    (h' : j < l.length) : (enumFromQ i l).get ⟨j, h⟩ = (i + j, l.get ⟨j, h'⟩) := by
  induction l generalizing i j with
  | nil => cases h'
  | cons x xs ih =>
    cases j with
    | zero => simp [enumFromQ]
    | succ j' =>
      have h2 : j' < (enumFromQ (i + 1) xs).length := by
        simpa [length_enumFromQ] using Nat.lt_of_succ_lt_succ h'
      have := ih (i + 1) j' h2 (Nat.lt_of_succ_lt_succ h')
      simp only [enumFromQ, List.get_cons_succ]
      rw [this]
      congr 1
      omega

/-- `ds.setdefault("text", "")`. -/
def setdefaultText (s : Seg) : Seg := { s with text := some (s.text.getD "") }

/-- The text-appending assignment done on the winning diarization segment:
`best["text"].rstrip() + " " + ws["text"].strip()` when `best["text"]` is
truthy, else `ws["text"].strip()`. -/
def appendTextSeg (s : Seg) (w : String) : Seg :=
  match s.text with
  | some t =>
    if t = "" then { s with text := some (stripS w) }
    else { s with text := some (rstripS t ++ " " ++ stripS w) }
  | none => { s with text := some (stripS w) }

/-- Overlap of a whisper segment against an indexed diarization segment. -/
def ovFun (ws : WSeg) (p : ℕ × Seg) : ℚ := _overlap ws.start ws.stop p.2.start p.2.stop

/-- The inner `for ds in diar_segments` loop of `map_whisper_to_diar`:
running best segment (kept with its position, since the Python code
mutates the winning dict in place) and best overlap, updated on strict
improvement only. -/
def assignTarget (diar : List Seg) (ws : WSeg) : Option (ℕ × Seg) × ℚ :=
  bestBy (ovFun ws) (enumFromQ 0 diar)

/-- One iteration of the outer `for ws in whisper_segments` loop:
`if best and best_overlap > 0.0` append the whisper text to the winner. -/
def stepWS (diar : List Seg) (ws : WSeg) : List Seg :=
  match assignTarget diar ws with
  | (some p, bo) => if 0 < bo then diar.set p.1 (appendTextSeg p.2 ws.text) else diar
  | (none, _) => diar

/-- Embedding of `map_whisper_to_diar(diar_segments, whisper_segments)`
from `src/main.py`: returns `[]` on an empty diarization list, otherwise
gives every segment a `"text"` key and folds the whisper segments in. -/
def map_whisper_to_diar (diar_segments : List Seg) (whisper_segments : List WSeg) :
    List Seg :=
  if diar_segments.isEmpty then []
  else whisper_segments.foldl stepWS (diar_segments.map setdefaultText)

/-- Overlap of whisper segment `ws` with the `j`-th diarization segment
(0 when `j` is out of range). -/
def ovAt (diar : List Seg) (ws : WSeg) (j : ℕ) : ℚ :=
  match diar[j]? with
  | some d => _overlap ws.start ws.stop d.start d.stop
  | none => 0

theorem ovAt_lt (diar : List Seg) (ws : WSeg) (j : ℕ) (h : j < diar.length) :
    ovAt diar ws j = ovFun ws (j, diar.get ⟨j, h⟩) := by
  simp [ovAt, ovFun, List.getElem?_eq_getElem h]

theorem assignTarget_cases (diar : List Seg) (ws : WSeg) :
    assignTarget diar ws = (none, 0) ∨
    ∃ k, ∃ h : k < diar.length,
      assignTarget diar ws = (some (k, diar.get ⟨k, h⟩), ovAt diar ws k) ∧
      0 < ovAt diar ws k ∧
      (∀ j, j < k → ovAt diar ws j < ovAt diar ws k) ∧
      (∀ j, ovAt diar ws j ≤ ovAt diar ws k) := by
  rcases bestByGo_spec (ovFun ws) (enumFromQ 0 diar) none 0 with ⟨heq, _⟩ |
      ⟨k, hk, h1, h2, h3, h4⟩
  · exact Or.inl heq
  · have hk' : k < diar.length := by
      simpa [length_enumFromQ] using hk
    have hget : (enumFromQ 0 diar).get ⟨k, hk⟩ = (k, diar.get ⟨k, hk'⟩) := by
      rw [get_enumFromQ 0 diar k hk hk']
      simp
    have hov : ovFun ws ((enumFromQ 0 diar).get ⟨k, hk⟩) = ovAt diar ws k := by
      rw [hget, ← ovAt_lt diar ws k hk']
    refine Or.inr ⟨k, hk', ?_, ?_, ?_, ?_⟩
    · have e1 : (assignTarget diar ws).1 = some (k, diar.get ⟨k, hk'⟩) := by
        rw [show (assignTarget diar ws).1 =
          (bestByGo (ovFun ws) (enumFromQ 0 diar) none 0).1 from rfl, h1, hget]
      have e2 : (assignTarget diar ws).2 = ovAt diar ws k := by
        rw [show (assignTarget diar ws).2 =
          (bestByGo (ovFun ws) (enumFromQ 0 diar) none 0).2 from rfl, h2, hov]
      exact Prod.ext e1 e2
    · rw [← hov]; exact h3
    · intro j hj
      have hj' : j < diar.length := lt_trans hj hk'
      have hjE : j < (enumFromQ 0 diar).length := by
        simpa [length_enumFromQ] using hj'
      have := h4 j hjE hj
      rw [get_enumFromQ 0 diar j hjE hj', hget] at this
      rw [ovAt_lt diar ws j hj', ovAt_lt diar ws k hk']
      simpa using this
    · intro j
      by_cases hj' : j < diar.length
      · have hjE : j < (enumFromQ 0 diar).length := by
          simpa [length_enumFromQ] using hj'
        have hmem := bestByGo_mem_le (ovFun ws) (enumFromQ 0 diar) none 0
          ((enumFromQ 0 diar).get ⟨j, hjE⟩) (List.get_mem _ _ _)
        rw [h2, hov] at hmem
        rw [get_enumFromQ 0 diar j hjE hj'] at hmem
        rw [ovAt_lt diar ws j hj']
        simpa using hmem
      · have : diar[j]? = none := by
          rw [List.getElem?_eq_none]
          omega
        rw [show ovAt diar ws j = 0 from by simp [ovAt, this]]
        rw [← hov]
        exact le_of_lt h3

/-- Claim C1: for every whisper segment `w` and diarization list `D`, the
aligner computes the overlap `max(0, min(w.end, d.end) - max(w.start,
d.start))` of `w` against every `d` and appends `w.text` to the `d` with
maximum strictly-positive overlap (earlier segments win ties, so the
winner is strictly better than every earlier segment and at least as good
as all); a `w` whose overlap with every `d` is at most zero is assigned to
no segment.  On the spec's example, "hello" goes to A and "world" to B
with no cross-assignment. -/
theorem C1_map_whisper_to_diar_alignment :
    (∀ (diar : List Seg) (ws : WSeg) (i : ℕ) (s : Seg) (bo : ℚ),
      assignTarget diar ws = (some (i, s), bo) →
      ∃ h : i < diar.length, diar.get ⟨i, h⟩ = s ∧ bo = ovAt diar ws i ∧
        0 < bo ∧ (∀ j, j < i → ovAt diar ws j < bo) ∧
        ∀ j, ovAt diar ws j ≤ bo) ∧
    (∀ (diar : List Seg) (ws : WSeg), (∀ j, ovAt diar ws j ≤ 0) →
      (assignTarget diar ws).1 = none) ∧
    map_whisper_to_diar
        [⟨0, 5, some "A", none, none⟩, ⟨5, 10, some "B", none, none⟩]
        [⟨1, 2, "hello"⟩, ⟨6, 7, "world"⟩] =
      [⟨0, 5, some "A", some "hello", none⟩,
        ⟨5, 10, some "B", some "world", none⟩] := by
  refine ⟨?_, ?_, ?_⟩
  · intro diar ws i s bo heq
    rcases assignTarget_cases diar ws with h | ⟨k, hk, h1, h2, h3, h4⟩
    · rw [h] at heq; cases heq
    · rw [h1] at heq
      have e1 : (k, diar.get ⟨k, hk⟩) = (i, s) := by
        have := congrArg Prod.fst heq
        simpa using this
      have e2 : ovAt diar ws k = bo := by
        have := congrArg Prod.snd heq
        simpa using this
      have eki : k = i := (Prod.mk.injEq _ _ _ _).mp e1 |>.1
      subst eki
      refine ⟨hk, (Prod.mk.injEq _ _ _ _).mp e1 |>.2, e2.symm, ?_, ?_, ?_⟩
      · rw [← e2]; exact h2
      · intro j hj; rw [← e2]; exact h3 j hj
      · intro j; rw [← e2]; exact h4 j
  · intro diar ws hall
    rcases assignTarget_cases diar ws with h | ⟨k, hk, h1, h2, _, _⟩
    · rw [h]
    · exact absurd (lt_of_lt_of_le h2 (hall k)) (lt_irrefl 0)
  · have hstrip1 : stripS "hello" = "hello" := by decide
    have hstrip2 : stripS "world" = "world" := by decide
    have hov1 : assignTarget
        [⟨0, 5, some "A", some "", none⟩, ⟨5, 10, some "B", some "", none⟩]
        ⟨1, 2, "hello"⟩ = (some (0, ⟨0, 5, some "A", some "", none⟩), 1) := by
      norm_num [assignTarget, bestBy, bestByGo, enumFromQ, ovFun, _overlap,
        min_def, max_def]
    have hs1 : stepWS
        [⟨0, 5, some "A", some "", none⟩, ⟨5, 10, some "B", some "", none⟩]
        ⟨1, 2, "hello"⟩ =
        [⟨0, 5, some "A", some "hello", none⟩, ⟨5, 10, some "B", some "", none⟩] := by
      rw [stepWS, hov1]
      norm_num [appendTextSeg, hstrip1]
    have hov2 : assignTarget
        [⟨0, 5, some "A", some "hello", none⟩, ⟨5, 10, some "B", some "", none⟩]
        ⟨6, 7, "world"⟩ =
        (some (1, ⟨5, 10, some "B", some "", none⟩), 1) := by
      norm_num [assignTarget, bestBy, bestByGo, enumFromQ, ovFun, _overlap,
        min_def, max_def]
    have hs2 : stepWS
        [⟨0, 5, some "A", some "hello", none⟩, ⟨5, 10, some "B", some "", none⟩]
        ⟨6, 7, "world"⟩ =
        [⟨0, 5, some "A", some "hello", none⟩,
          ⟨5, 10, some "B", some "world", none⟩] := by
      rw [stepWS, hov2]
      norm_num [appendTextSeg, hstrip2]
    have hmap : ([⟨0, 5, some "A", none, none⟩,
        ⟨5, 10, some "B", none, none⟩] : List Seg).map setdefaultText =
        [⟨0, 5, some "A", some "", none⟩, ⟨5, 10, some "B", some "", none⟩] := by
      decide
    rw [map_whisper_to_diar]
    rw [if_neg (by decide)]
    rw [hmap]
    simp only [List.foldl]
    rw [hs1, hs2]

/-- Witness for C1: on the spec's example, the first whisper segment is
assigned to segment A with strictly positive overlap 1, and 1 bounds the
overlap against every diarization segment. -/
theorem C1_witness :
    0 < ovAt [⟨0, 5, some "A", some "", none⟩, ⟨5, 10, some "B", some "", none⟩]
        ⟨1, 2, "hello"⟩ 0 ∧
    ∀ j, ovAt [⟨0, 5, some "A", some "", none⟩, ⟨5, 10, some "B", some "", none⟩]
        ⟨1, 2, "hello"⟩ j ≤ 1 := by
  have hov1 : assignTarget
      [⟨0, 5, some "A", some "", none⟩, ⟨5, 10, some "B", some "", none⟩]
      ⟨1, 2, "hello"⟩ = (some (0, ⟨0, 5, some "A", some "", none⟩), 1) := by
    norm_num [assignTarget, bestBy, bestByGo, enumFromQ, ovFun, _overlap,
      min_def, max_def]
  obtain ⟨h, _, hbo, hpos, _, hall⟩ :=
    C1_map_whisper_to_diar_alignment.1 _ _ 0 _ 1 hov1
  exact ⟨hbo ▸ hpos, hall⟩

/-- The fields of a segment other than `"text"`. -/
def frameOf (s : Seg) : ℚ × ℚ × Option String × Option String :=
  (s.start, s.stop, s.speaker, s.role)

theorem frameOf_appendTextSeg (s : Seg) (w : String) :
    frameOf (appendTextSeg s w) = frameOf s := by
  rcases s with ⟨a, b, sp, t, r⟩
  cases t with
  | none => rfl
  | some t0 =>
    by_cases h : t0 = "" <;> simp [appendTextSeg, frameOf, h]

theorem frameOf_setdefaultText (s : Seg) :
    frameOf (setdefaultText s) = frameOf s := rfl

theorem List_set_self (l : List α) (i : ℕ) (h : i < l.length) :
    l.set i (l.get ⟨i, h⟩) = l := by
  induction l generalizing i with
  | nil => cases h
  | cons x xs ih =>
    cases i with
    | zero => rfl
    | succ i' => simpa [List.set] using ih i' (Nat.lt_of_succ_lt_succ h)

theorem stepWS_frame (l : List Seg) (ws : WSeg) :
    (stepWS l ws).map frameOf = l.map frameOf := by
  rcases assignTarget_cases l ws with h | ⟨k, hk, h1, h2, _, _⟩
  · rw [stepWS, h]
  · simp only [stepWS, h1, if_pos h2]
    rw [List.map_set, frameOf_appendTextSeg]
    have hget : frameOf (l.get ⟨k, hk⟩) =
        (l.map frameOf).get ⟨k, by simpa using hk⟩ := by
      simp
    rw [hget, List_set_self]

theorem foldl_stepWS_frame (wh : List WSeg) (l : List Seg) :
    (wh.foldl stepWS l).map frameOf = l.map frameOf := by
  induction wh generalizing l with
  | nil => rfl
  | cons w ws ih => rw [List.foldl_cons, ih, stepWS_frame]

/-- Claim C10: `map_whisper_to_diar` keeps the diarization list's length
and order and modifies only the `"text"` field: mapping every segment to
its non-text fields gives the same list before and after. -/
theorem C10_map_whisper_to_diar_frame (diar : List Seg) (wh : List WSeg) :
    (map_whisper_to_diar diar wh).map frameOf = diar.map frameOf := by
  rw [map_whisper_to_diar]
  by_cases h : diar.isEmpty
  · rw [if_pos h]
    rw [List.isEmpty_iff] at h
    rw [h]
  · rw [if_neg h, foldl_stepWS_frame]
    rw [List.map_map]
    congr 1

/-! ### `src/main.py`: autoresponder detection and role assignment -/

/-- The `auto_patterns` list of `detect_autoanswer`. -/
def auto_patterns : List String :=
  ["вы позвонили", "оставьте сообщение", "после сигнала", "автоответчик",
    "сообщение оставьте", "оставьте голосовое", "добро пожаловать", "вы набрали"]

/-- Embedding of `detect_autoanswer(segments, whisper_segments)`: scans the
whisper segments (the first argument is unused by the source) and returns
the first whose lowered text contains one of the patterns. -/
def detect_autoanswer (whisper_segments : List WSeg) : Option WSeg :=
  whisper_segments.find? fun ws =>
    auto_patterns.any fun p => containsSeq (lowerS ws.text).toList p.toList

/-- `best["role"] = "Автоответчик"`. -/
def setRoleAuto (s : Seg) : Seg := { s with role := some "Автоответчик" }

/-- The autoresponder-tagging step of `assign_roles_by_policy`: when a
whisper segment matches, the diarization segment with maximal strictly
positive overlap (same strict-improvement loop as the aligner) gets role
`"Автоответчик"`, and its `"speaker"` value becomes `auto_speaker`.
Returns the (possibly updated) list and `auto_speaker`. -/
def autoTagPhase (diar : List Seg) (wh : List WSeg) : List Seg × Option String :=
  match detect_autoanswer wh with
  | none => (diar, none)
  | some wsa =>
    match assignTarget diar ⟨wsa.start, wsa.stop, wsa.text⟩ with
    | (some p, bo) => if 0 < bo then (diar.set p.1 (setRoleAuto p.2), p.2.speaker)
                      else (diar, none)
    | (none, _) => (diar, none)

/-- `s.get("role")`-based fallback of the speaker-times key:
`... or s.get("role") or "Спикер"` with Python truthiness. -/
def fallbackKey (s : Seg) : String :=
  match s.role with
  | some r => if r = "" then "Спикер" else r
  | none => "Спикер"

/-- `sp = s.get("speaker") or s.get("role") or "Спикер"`. -/
def speakerKeyOf (s : Seg) : String :=
  match s.speaker with
  | some v => if v = "" then fallbackKey s else v
  | none => fallbackKey s

/-- Python dict upsert preserving first-insertion order of keys. -/
def addTime (l : List (String × ℚ)) (sp : String) (d : ℚ) : List (String × ℚ) :=
  match l with
  | [] => [(sp, d)]
  | (k, v) :: rest => if k = sp then (k, v + d) :: rest else (k, v) :: addTime rest sp d

/-- `speaker_times`: per-key sums of `max(0.0, end - start)`, keys in
first-occurrence order (Python dict iteration order). -/
def speakerTimes (segs : List Seg) : List (String × ℚ) :=
  segs.foldl (fun acc s => addTime acc (speakerKeyOf s) (max 0 (s.stop - s.start))) []

/-- Stable insertion for descending-by-time order: a new entry goes after
every entry with a greater-or-equal time (so earlier entries win ties,
matching Python's stable `sorted(..., reverse=True)`). -/
def insertDesc (x : String × ℚ) : List (String × ℚ) → List (String × ℚ)
  | [] => [x]
  | y :: ys => if y.2 < x.2 then x :: y :: ys else y :: insertDesc x ys

/-- `sorted(speaker_times.items(), key=lambda x: x[1], reverse=True)`
as a stable insertion sort. -/
def sortDesc (l : List (String × ℚ)) : List (String × ℚ) :=
  l.foldl (fun acc x => insertDesc x acc) []

/-- Association-list lookup (Python `dict.get` on string keys). -/
def lookupA : List (String × β) → String → Option β
  | [], _ => none
  | (k, v) :: rest, key => if k = key then some v else lookupA rest key

/-- First `for sp, _ in sorted_sp` loop of `assign_roles_by_policy`:
skip `auto_speaker`; the first remaining key gets `"Менеджер"`, the
second `"Клиент"`, then the loop breaks. -/
def buildRoles1 (auto : Option String) : List (String × ℚ) → ℕ → List (String × String)
  | [], _ => []
  | p :: rest, idx =>
    if some p.1 = auto then buildRoles1 auto rest idx
    else if idx = 0 then (p.1, "Менеджер") :: buildRoles1 auto rest 1
    else if idx = 1 then (p.1, "Клиент") :: buildRoles1 auto rest 2
    else []

/-- Second loop: every sorted key not yet mapped and distinct from
`auto_speaker` gets `"Собеседник n"`, `n` counting up from 1. -/
def buildRoles2 (auto : Option String) (rm : List (String × String)) :
    List (String × ℚ) → ℕ → List (String × String)
  | [], _ => rm
  | p :: rest, oi =>
    if (lookupA rm p.1).isSome ∨ some p.1 = auto then buildRoles2 auto rm rest oi
    else buildRoles2 auto (rm ++ [(p.1, "Собеседник " ++ toString oi)]) rest (oi + 1)

/-- Embedding of `_normalize_speaker_label(sp)`: falsy values become
`"Спикер"`; both remaining branches return `sp` itself. -/
def _normalize_speaker_label (sp : Option String) : String :=
  match sp with
  | none => "Спикер"
  | some v =>
    if v = "" then "Спикер"
    else if beginsWith "SPEAKER_".toList (upperS v).toList then v
    else v

/-- `roles_map.get(sp, _normalize_speaker_label(sp))` where `sp` is the
segment's `"speaker"` value (possibly `None`). -/
def roleFor (rm : List (String × String)) (sp : Option String) : String :=
  match sp with
  | none => _normalize_speaker_label none
  | some v =>
    match lookupA rm v with
    | some r => r
    | none => _normalize_speaker_label (some v)

/-- The `roles_map` built by `assign_roles_by_policy` after the
autoresponder phase. -/
def rolesMapOf (diar : List Seg) (wh : List WSeg) : List (String × String) :=
  let tp := autoTagPhase diar wh
  let sorted := sortDesc (speakerTimes tp.1)
  buildRoles2 tp.2 (buildRoles1 tp.2 sorted 0) sorted 1

/-- Embedding of `assign_roles_by_policy(diar_segments, whisper_segments)`
from `src/main.py`: empty input is returned unchanged; otherwise the
autoresponder phase runs, the talk-time ranking builds `roles_map`, and
the final loop overwrites every role except `"Автоответчик"` ones. -/
def assign_roles_by_policy (diar_segments : List Seg)
    (whisper_segments : List WSeg) : List Seg :=
  if diar_segments.isEmpty then diar_segments
  else
    (autoTagPhase diar_segments whisper_segments).1.map fun s =>
      if s.role = some "Автоответчик" then s
      else { s with role := some (roleFor (rolesMapOf diar_segments whisper_segments) s.speaker) }

/-- The role of the `i`-th segment (or `none` out of range). -/
def roleAt (l : List Seg) (i : ℕ) : Option String :=
  match l[i]? with
  | some s => s.role
  | none => none

theorem roleAt_eq_get (l : List Seg) (i : ℕ) (h : i < l.length) :
    roleAt l i = (l.get ⟨i, h⟩).role := by
  simp [roleAt, List.getElem?_eq_getElem h]

/-- The speaker of the `i`-th segment (or `none` out of range). -/
def speakerAt (l : List Seg) (i : ℕ) : Option (Option String) :=
  (l[i]?).map Seg.speaker

theorem roleAt_map (f : Seg → Seg) (l : List Seg) (i : ℕ) :
    roleAt (l.map f) i =
      match l[i]? with
      | some s => (f s).role
      | none => none := by
  rw [roleAt, List.getElem?_map]
  cases l[i]? <;> rfl

theorem speakerAt_map (f : Seg → Seg) (l : List Seg) (i : ℕ) :
    speakerAt (l.map f) i =
      match l[i]? with
      | some s => some (f s).speaker
      | none => none := by
  rw [speakerAt, List.getElem?_map]
  cases l[i]? <;> rfl

/-- Claim C4: after `assign_roles_by_policy`, every pair of segments that
share a `"speaker"` value and are not tagged `"Автоответчик"` carry the
same role (the role is a function of the speaker key), and a segment
tagged `"Автоответчик"` by the autoresponder phase keeps that role in
the output (it is never overwritten). -/
theorem C4_role_per_speaker_key (diar : List Seg) (wh : List WSeg) :
    (∀ i j, speakerAt (assign_roles_by_policy diar wh) i =
        speakerAt (assign_roles_by_policy diar wh) j →
      roleAt (assign_roles_by_policy diar wh) i ≠ some "Автоответчик" →
      roleAt (assign_roles_by_policy diar wh) j ≠ some "Автоответчик" →
      roleAt (assign_roles_by_policy diar wh) i =
        roleAt (assign_roles_by_policy diar wh) j) ∧
    ∀ i, roleAt (autoTagPhase diar wh).1 i = some "Автоответчик" →
      roleAt (assign_roles_by_policy diar wh) i = some "Автоответчик" := by
  by_cases hemp : diar.isEmpty
  · have hout : assign_roles_by_policy diar wh = diar := by
      rw [assign_roles_by_policy, if_pos hemp]
    have hdiar : diar = [] := List.isEmpty_iff.mp hemp
    subst hdiar
    constructor
    · intro i j _ _ _
      rw [hout]
      rfl
    · intro i htag
      have h1 : (autoTagPhase [] wh).1 = ([] : List Seg) := by
        rw [autoTagPhase]
        cases detect_autoanswer wh with
        | none => rfl
        | some wsa =>
          rcases assignTarget_cases [] ⟨wsa.start, wsa.stop, wsa.text⟩ with h | ⟨k, hk, _⟩
          · simp [h]
          · cases hk
      rw [h1] at htag
      cases htag
  · have hout : assign_roles_by_policy diar wh =
        (autoTagPhase diar wh).1.map (fun s =>
          if s.role = some "Автоответчик" then s
          else { s with role := some (roleFor (rolesMapOf diar wh) s.speaker) }) := by
      rw [assign_roles_by_policy, if_neg hemp]
    constructor
    · intro i j hsp hri hrj
      rw [hout] at hsp hri hrj ⊢
      simp only [roleAt_map] at hri hrj ⊢
      simp only [speakerAt_map] at hsp
      rcases hli : (autoTagPhase diar wh).1[i]? with _ | si
      · rcases hlj : (autoTagPhase diar wh).1[j]? with _ | sj
        · simp only [hli, hlj]
        · simp [hli, hlj] at hsp
      · rcases hlj : (autoTagPhase diar wh).1[j]? with _ | sj
        · simp [hli, hlj] at hsp
        · simp only [hli, hlj] at hsp hri hrj
          simp only at hsp hri hrj ⊢
          by_cases hAi : si.role = some "Автоответчик"
          · rw [if_pos hAi] at hri
            exact absurd hAi hri
          · by_cases hAj : sj.role = some "Автоответчик"
            · rw [if_pos hAj] at hrj
              exact absurd hAj hrj
            · rw [if_neg hAi] at hsp ⊢
              rw [if_neg hAj] at hsp ⊢
              simp only at hsp ⊢
              injection hsp with hsp2
              rw [hsp2]
    · intro i htag
      rcases hlook : (autoTagPhase diar wh).1[i]? with _ | s
      · rw [roleAt, hlook] at htag
        cases htag
      · rw [roleAt, hlook] at htag
        rw [hout, roleAt, List.getElem?_map, hlook]
        simp only at htag
        simp only [Option.map_some']
        rw [if_pos htag]
        exact htag

/-- Witness for C4: two segments sharing speaker "X" (no autoresponder)
end up with the same role, namely "Менеджер". -/
theorem C4_witness :
    roleAt (assign_roles_by_policy
      [⟨0, 1, some "X", none, none⟩, ⟨1, 2, some "X", none, none⟩] []) 0 =
    roleAt (assign_roles_by_policy
      [⟨0, 1, some "X", none, none⟩, ⟨1, 2, some "X", none, none⟩] []) 1 ∧
    roleAt (assign_roles_by_policy
      [⟨0, 1, some "X", none, none⟩, ⟨1, 2, some "X", none, none⟩] []) 0 =
      some "Менеджер" := by
  have hev : assign_roles_by_policy
      [⟨0, 1, some "X", none, none⟩, ⟨1, 2, some "X", none, none⟩] [] =
      [⟨0, 1, some "X", none, some "Менеджер"⟩,
        ⟨1, 2, some "X", none, some "Менеджер"⟩] := by
    norm_num [assign_roles_by_policy, autoTagPhase, detect_autoanswer, rolesMapOf,
      speakerTimes, addTime, speakerKeyOf, fallbackKey, sortDesc, insertDesc,
      buildRoles1, buildRoles2, lookupA, roleFor, List.foldl, List.find?]
    decide
  refine ⟨?_, by rw [hev]; rfl⟩
  refine (C4_role_per_speaker_key _ _).1 0 1 ?_ ?_ ?_
  · rw [hev]; rfl
  · rw [hev]; decide
  · rw [hev]; decide

/-! ### Lemmas about the talk-time ranking -/

theorem insertDesc_perm (x : String × ℚ) (l : List (String × ℚ)) :
    (insertDesc x l).Perm (x :: l) := by
  induction l with
  | nil => exact List.Perm.refl _
  | cons y ys ih =>
    rw [insertDesc]
    by_cases h : y.2 < x.2
    · rw [if_pos h]
    · rw [if_neg h]
      exact List.Perm.trans (List.Perm.cons y ih) (List.Perm.swap x y ys)

theorem foldl_insertDesc_perm (l acc : List (String × ℚ)) :
    (l.foldl (fun acc x => insertDesc x acc) acc).Perm (acc ++ l) := by
  induction l generalizing acc with
  | nil => simp
  | cons x xs ih =>
    rw [List.foldl_cons]
    refine List.Perm.trans (ih (insertDesc x acc)) ?_
    refine List.Perm.trans (List.Perm.append_right xs (insertDesc_perm x acc)) ?_
    exact List.perm_middle.symm

theorem sortDesc_perm (l : List (String × ℚ)) : (sortDesc l).Perm l := by
  simpa using foldl_insertDesc_perm l []

theorem insertDesc_sorted (x : String × ℚ) (l : List (String × ℚ))
    (hl : List.Pairwise (fun a b : String × ℚ => b.2 ≤ a.2) l) :
    List.Pairwise (fun a b : String × ℚ => b.2 ≤ a.2) (insertDesc x l) := by
  induction l with
  | nil => simp [insertDesc]
  | cons y ys ih =>
    rw [List.pairwise_cons] at hl
    rw [insertDesc]
    by_cases h : y.2 < x.2
    · rw [if_pos h]
      refine List.Pairwise.cons ?_ (List.Pairwise.cons hl.1 hl.2)
      intro z hz
      rcases List.mem_cons.mp hz with hz | hz
      · rw [hz]; exact le_of_lt h
      · exact le_trans (hl.1 z hz) (le_of_lt h)
    · rw [if_neg h]
      refine List.Pairwise.cons ?_ (ih hl.2)
      intro z hz
      have hz' := (insertDesc_perm x ys).mem_iff.mp hz
      rcases List.mem_cons.mp hz' with hz' | hz'
      · rw [hz']; exact le_of_not_lt h
      · exact hl.1 z hz'

theorem sortDesc_sorted (l : List (String × ℚ)) :
    List.Pairwise (fun a b : String × ℚ => b.2 ≤ a.2) (sortDesc l) := by
  have main : ∀ (m acc : List (String × ℚ)),
      List.Pairwise (fun a b : String × ℚ => b.2 ≤ a.2) acc →
      List.Pairwise (fun a b : String × ℚ => b.2 ≤ a.2)
        (m.foldl (fun acc x => insertDesc x acc) acc) := by
    intro m
    induction m with
    | nil => intro acc h; exact h
    | cons x xs ih =>
      intro acc h
      rw [List.foldl_cons]
      exact ih _ (insertDesc_sorted x acc h)
  exact main l [] (List.Pairwise.nil)

theorem addTime_keys (l : List (String × ℚ)) (sp : String) (d : ℚ) :
    (addTime l sp d).map Prod.fst =
      if sp ∈ l.map Prod.fst then l.map Prod.fst else l.map Prod.fst ++ [sp] := by
  induction l with
  | nil => simp [addTime]
  | cons p rest ih =>
    rw [addTime]
    by_cases h : p.1 = sp
    · have : sp ∈ (p :: rest).map Prod.fst := by simp [h]
      rw [if_pos h, if_pos this]
      simp
    · rw [if_neg h]
      by_cases hm : sp ∈ rest.map Prod.fst
      · have : sp ∈ (p :: rest).map Prod.fst := by simp [hm]
        rw [if_pos this]
        simp only [List.map_cons, ih, if_pos hm]
      · have : sp ∉ (p :: rest).map Prod.fst := by
          simp only [List.map_cons, List.mem_cons]
          push_neg
          exact ⟨fun hc => h hc.symm, hm⟩
        rw [if_neg this]
        simp only [List.map_cons, ih, if_neg hm, List.cons_append]

theorem addTime_keys_nodup (l : List (String × ℚ)) (sp : String) (d : ℚ)
    (h : (l.map Prod.fst).Nodup) : ((addTime l sp d).map Prod.fst).Nodup := by
  rw [addTime_keys]
  by_cases hm : sp ∈ l.map Prod.fst
  · rw [if_pos hm]; exact h
  · rw [if_neg hm]
    simp [List.nodup_append, h, hm]

theorem addTime_keys_self (l : List (String × ℚ)) (sp : String) (d : ℚ) :
    sp ∈ (addTime l sp d).map Prod.fst := by
  rw [addTime_keys]
  by_cases hm : sp ∈ l.map Prod.fst
  · rw [if_pos hm]; exact hm
  · rw [if_neg hm]; simp

theorem addTime_keys_mono (l : List (String × ℚ)) (sp k : String) (d : ℚ)
    (h : k ∈ l.map Prod.fst) : k ∈ (addTime l sp d).map Prod.fst := by
  rw [addTime_keys]
  by_cases hm : sp ∈ l.map Prod.fst
  · rw [if_pos hm]; exact h
  · rw [if_neg hm]; exact List.mem_append_left _ h

theorem speakerTimesGo_keys_nodup (segs : List Seg) :
    ∀ acc : List (String × ℚ), (acc.map Prod.fst).Nodup →
    ((segs.foldl (fun acc s =>
      addTime acc (speakerKeyOf s) (max 0 (s.stop - s.start))) acc).map
        Prod.fst).Nodup := by
  induction segs with
  | nil => intro acc h; exact h
  | cons s rest ih =>
    intro acc h
    rw [List.foldl_cons]
    exact ih _ (addTime_keys_nodup _ _ _ h)

theorem speakerTimes_keys_nodup (segs : List Seg) :
    ((speakerTimes segs).map Prod.fst).Nodup :=
  speakerTimesGo_keys_nodup segs [] (by simp)

theorem speakerTimesGo_keys_mono (segs : List Seg) :
    ∀ (acc : List (String × ℚ)) (k : String), k ∈ acc.map Prod.fst →
    k ∈ (segs.foldl (fun acc s =>
      addTime acc (speakerKeyOf s) (max 0 (s.stop - s.start))) acc).map Prod.fst := by
  induction segs with
  | nil => intro acc k h; exact h
  | cons s rest ih =>
    intro acc k h
    rw [List.foldl_cons]
    exact ih _ k (addTime_keys_mono _ _ _ _ h)

theorem mem_keys_speakerTimes (segs : List Seg) (s : Seg) (hs : s ∈ segs) :
    speakerKeyOf s ∈ (speakerTimes segs).map Prod.fst := by
  have main : ∀ (m : List Seg) (acc : List (String × ℚ)) (s : Seg), s ∈ m →
      speakerKeyOf s ∈ (m.foldl (fun acc s =>
        addTime acc (speakerKeyOf s) (max 0 (s.stop - s.start))) acc).map Prod.fst := by
    intro m
    induction m with
    | nil => intro acc t ht; cases ht
    | cons x xs ih =>
      intro acc t ht
      rw [List.foldl_cons]
      rcases List.mem_cons.mp ht with h | h
      · rw [h]
        exact speakerTimesGo_keys_mono xs _ _ (addTime_keys_self _ _ _)
      · exact ih _ t h
  exact main segs [] s hs

theorem lookupA_append (l r : List (String × β)) (k : String) :
    lookupA (l ++ r) k =
      match lookupA l k with
      | some v => some v
      | none => lookupA r k := by
  induction l with
  | nil => rfl
  | cons p rest ih =>
    by_cases h : p.1 = k
    · simp [lookupA, h]
    · rw [List.cons_append]
      rw [show lookupA (p :: (rest ++ r)) k = lookupA (rest ++ r) k from by
        rw [lookupA, if_neg h]]
      rw [show lookupA (p :: rest) k = lookupA rest k from by
        rw [lookupA, if_neg h]]
      exact ih

theorem lookupA_eq_none (l : List (String × β)) (k : String)
    (h : k ∉ l.map Prod.fst) : lookupA l k = none := by
  induction l with
  | nil => rfl
  | cons p rest ih =>
    simp only [List.map_cons, List.mem_cons] at h
    push_neg at h
    rw [lookupA, if_neg (fun hc => h.1 hc.symm), ih h.2]

/-- The entries appended by the second role loop, in order: the `j`-th
key of `l` gets `"Собеседник (oi + j)"`. -/
def sobList (oi : ℕ) : List (String × ℚ) → List (String × String)
  | [] => []
  | p :: rest => (p.1, "Собеседник " ++ toString oi) :: sobList (oi + 1) rest

theorem sobList_lookup (l : List (String × ℚ)) (oi : ℕ)
    (hnd : (l.map Prod.fst).Nodup) (j : ℕ) (hj : j < l.length) :
    lookupA (sobList oi l) ((l.get ⟨j, hj⟩).1) =
      some ("Собеседник " ++ toString (oi + j)) := by
  induction l generalizing oi j with
  | nil => cases hj
  | cons p rest ih =>
    cases j with
    | zero => simp [sobList, lookupA]
    | succ j' =>
      have hj' : j' < rest.length := Nat.lt_of_succ_lt_succ (by simpa using hj)
      have hkey : (((p :: rest).get ⟨j' + 1, hj⟩).1) = ((rest.get ⟨j', hj'⟩).1) := rfl
      rw [hkey, sobList, lookupA]
      rw [List.map_cons, List.nodup_cons] at hnd
      have hne : p.1 ≠ (rest.get ⟨j', hj'⟩).1 := by
        intro hc
        exact hnd.1 (by rw [hc]; exact List.mem_map_of_mem Prod.fst (List.get_mem rest _ _))
      have harith : oi + 1 + j' = oi + (j' + 1) := by omega
      rw [if_neg hne, ih (oi + 1) hnd.2 j' hj', harith]

theorem buildRoles2_none (l : List (String × ℚ)) (rm : List (String × String))
    (oi : ℕ) (hdisj : ∀ p ∈ l, lookupA rm p.1 = none)
    (hnd : (l.map Prod.fst).Nodup) :
    buildRoles2 none rm l oi = rm ++ sobList oi l := by
  induction l generalizing rm oi with
  | nil => simp [buildRoles2, sobList]
  | cons p rest ih =>
    rw [buildRoles2, sobList]
    have h1 : lookupA rm p.1 = none := hdisj p (by simp)
    have hcond : ¬((lookupA rm p.1).isSome = true ∨ some p.1 = none) := by
      simp [h1]
    rw [if_neg hcond]
    rw [List.map_cons, List.nodup_cons] at hnd
    have hdisj' : ∀ q ∈ rest,
        lookupA (rm ++ [(p.1, "Собеседник " ++ toString oi)]) q.1 = none := by
      intro q hq
      rw [lookupA_append, hdisj q (by simp [hq])]
      have hne : p.1 ≠ q.1 := by
        intro hc
        exact hnd.1 (by rw [hc]; exact List.mem_map_of_mem Prod.fst hq)
      simp [lookupA, hne]
    rw [ih _ _ hdisj' hnd.2]
    simp

/-- The role handed to the speaker of rank `k` in the talk-time order. -/
def rankRole (k : ℕ) : String :=
  if k = 0 then "Менеджер"
  else if k = 1 then "Клиент"
  else "Собеседник " ++ toString (k - 1)

theorem buildRoles1_none_two (l : List (String × ℚ)) :
    buildRoles1 none l 2 = [] := by
  cases l with
  | nil => rfl
  | cons p rest => simp [buildRoles1]

theorem rolesMap_lookup (sorted : List (String × ℚ))
    (hnd : (sorted.map Prod.fst).Nodup) (k : ℕ) (hk : k < sorted.length) :
    lookupA (buildRoles2 none (buildRoles1 none sorted 0) sorted 1)
      ((sorted.get ⟨k, hk⟩).1) = some (rankRole k) := by
  rcases sorted with _ | ⟨a, _ | ⟨b, t⟩⟩
  · cases hk
  · have hk0 : k = 0 := by
      simp only [List.length_cons, List.length_nil] at hk
      omega
    subst hk0
    have hb1 : buildRoles1 none [a] 0 = [(a.1, "Менеджер")] := by
      simp [buildRoles1]
    have hb2 : buildRoles2 none [(a.1, "Менеджер")] [a] 1 = [(a.1, "Менеджер")] := by
      rw [buildRoles2]
      rw [if_pos (by simp [lookupA])]
      rfl
    rw [hb1, hb2]
    simp [lookupA, rankRole]
  · rw [List.map_cons, List.map_cons, List.nodup_cons, List.nodup_cons] at hnd
    obtain ⟨ha, hb, hndt⟩ := hnd
    have hab : a.1 ≠ b.1 := by
      intro hc
      exact ha (by rw [hc]; exact List.mem_cons_self _ _)
    have ha' : ∀ q ∈ t, a.1 ≠ q.1 := by
      intro q hq hc
      exact ha (by rw [hc]; exact List.mem_cons_of_mem _ (List.mem_map_of_mem Prod.fst hq))
    have hb' : ∀ q ∈ t, b.1 ≠ q.1 := by
      intro q hq hc
      exact hb (by rw [hc]; exact List.mem_map_of_mem Prod.fst hq)
    have hb1 : buildRoles1 none (a :: b :: t) 0 =
        [(a.1, "Менеджер"), (b.1, "Клиент")] := by
      simp [buildRoles1, buildRoles1_none_two]
    have hdisj : ∀ q ∈ t, lookupA [(a.1, "Менеджер"), (b.1, "Клиент")] q.1 = none := by
      intro q hq
      simp [lookupA, ha' q hq, hb' q hq]
    have hb2 : buildRoles2 none [(a.1, "Менеджер"), (b.1, "Клиент")] (a :: b :: t) 1 =
        [(a.1, "Менеджер"), (b.1, "Клиент")] ++ sobList 1 t := by
      rw [buildRoles2]
      rw [if_pos (by simp [lookupA])]
      rw [buildRoles2]
      rw [if_pos (by left; simp [lookupA, hab])]
      exact buildRoles2_none t _ 1 hdisj hndt
    rw [hb1, hb2]
    match k, hk with
    | 0, hk =>
      simp [lookupA_append, lookupA, rankRole]
    | 1, hk =>
      simp [lookupA_append, lookupA, hab, rankRole]
    | (j + 2), hk =>
      have hj : j < t.length := by
        simp only [List.length_cons] at hk
        omega
      have hkey : (((a :: b :: t).get ⟨j + 2, hk⟩).1) = ((t.get ⟨j, hj⟩).1) := rfl
      rw [hkey, lookupA_append]
      rw [show lookupA [(a.1, "Менеджер"), (b.1, "Клиент")] ((t.get ⟨j, hj⟩).1)
          = none from by
        rw [lookupA, if_neg (ha' _ (List.get_mem t _ _)), lookupA,
          if_neg (hb' _ (List.get_mem t _ _))]
        rfl]
      rw [sobList_lookup t 1 hndt j hj, Nat.add_comm 1 j]
      rw [rankRole, if_neg (by omega), if_neg (by omega)]
      rfl

/-- Claim C3: with no autoresponder detected, `assign_roles_by_policy`
sums `max(0, end - start)` talk time per speaker key (`speakerTimes`),
ranks speakers in descending order of total time (`sortDesc`, a stable
sort and a permutation of the per-speaker sums), and gives the rank-0
speaker `"Менеджер"`, rank 1 `"Клиент"`, and every rank `k ≥ 2`
`"Собеседник (k-1)"` — independent of the original labels. -/
theorem C3_assign_roles_by_talk_time (diar : List Seg) (wh : List WSeg)
    (hdet : detect_autoanswer wh = none)
    (hrole : ∀ s ∈ diar, s.role ≠ some "Автоответчик") :
    List.Pairwise (fun a b : String × ℚ => b.2 ≤ a.2)
      (sortDesc (speakerTimes diar)) ∧
    (sortDesc (speakerTimes diar)).Perm (speakerTimes diar) ∧
    ∀ k, ∀ hk : k < (sortDesc (speakerTimes diar)).length,
      ∀ i, ∀ hi : i < diar.length,
        (diar.get ⟨i, hi⟩).speaker =
          some (((sortDesc (speakerTimes diar)).get ⟨k, hk⟩).1) →
        roleAt (assign_roles_by_policy diar wh) i = some (rankRole k) := by
  refine ⟨sortDesc_sorted _, sortDesc_perm _, ?_⟩
  intro k hk i hi hspeq
  have hemp : ¬ diar.isEmpty = true := by
    intro hc
    rw [List.isEmpty_iff] at hc
    rw [hc] at hi
    cases hi
  have htp : autoTagPhase diar wh = (diar, none) := by
    rw [autoTagPhase, hdet]
  have hout : assign_roles_by_policy diar wh =
      diar.map (fun s => if s.role = some "Автоответчик" then s
        else { s with role := some (roleFor (rolesMapOf diar wh) s.speaker) }) := by
    rw [assign_roles_by_policy, if_neg hemp, htp]
  have hrm : rolesMapOf diar wh =
      buildRoles2 none (buildRoles1 none (sortDesc (speakerTimes diar)) 0)
        (sortDesc (speakerTimes diar)) 1 := by
    rw [rolesMapOf, htp]
  have hndsorted : ((sortDesc (speakerTimes diar)).map Prod.fst).Nodup := by
    have hperm := (sortDesc_perm (speakerTimes diar)).map Prod.fst
    exact hperm.nodup_iff.mpr (speakerTimes_keys_nodup diar)
  have hgi : diar[i]? = some (diar.get ⟨i, hi⟩) := by
    rw [List.getElem?_eq_getElem hi]
    rfl
  rw [hout, roleAt, List.getElem?_map, hgi]
  simp only [Option.map_some']
  have hsA : (diar.get ⟨i, hi⟩).role ≠ some "Автоответчик" :=
    hrole _ (List.get_mem _ _ _)
  rw [if_neg hsA]
  show some (roleFor (rolesMapOf diar wh) ((diar.get ⟨i, hi⟩).speaker)) =
    some (rankRole k)
  rw [hspeq, roleFor]
  rw [hrm, rolesMap_lookup _ hndsorted k hk]

/-- Three speakers with talk times 50s, 30s, 20s. -/
def exDiarC3 : List Seg :=
  [⟨0, 50, some "S2", none, none⟩, ⟨50, 80, some "S0", none, none⟩,
    ⟨80, 100, some "S1", none, none⟩]

/-- Witness for C3: talk times 50/30/20 yield Менеджер / Клиент /
Собеседник 1, independent of the original labels. -/
theorem C3_witness :
    roleAt (assign_roles_by_policy exDiarC3 []) 0 = some "Менеджер" ∧
    roleAt (assign_roles_by_policy exDiarC3 []) 1 = some "Клиент" ∧
    roleAt (assign_roles_by_policy exDiarC3 []) 2 = some "Собеседник 1" := by
  have hdet : detect_autoanswer ([] : List WSeg) = none := rfl
  have hrole : ∀ s ∈ exDiarC3, s.role ≠ some "Автоответчик" := by decide
  have hsorted : sortDesc (speakerTimes exDiarC3) =
      [("S2", 50), ("S0", 30), ("S1", 20)] := by
    norm_num [exDiarC3, speakerTimes, addTime, speakerKeyOf, sortDesc, insertDesc,
      List.foldl]
    decide
  have hthm := (C3_assign_roles_by_talk_time exDiarC3 [] hdet hrole).2.2
  have hk0 : 0 < (sortDesc (speakerTimes exDiarC3)).length := by
    rw [hsorted]; norm_num
  have hk1 : 1 < (sortDesc (speakerTimes exDiarC3)).length := by
    rw [hsorted]; norm_num
  have hk2 : 2 < (sortDesc (speakerTimes exDiarC3)).length := by
    rw [hsorted]; norm_num
  refine ⟨?_, ?_, ?_⟩
  · have h := hthm 0 hk0 0 (by norm_num [exDiarC3])
      (by rw [List.get_of_eq hsorted]
          show (exDiarC3.get ⟨0, _⟩).speaker = some "S2"
          decide)
    rw [h]
    decide
  · have h := hthm 1 hk1 1 (by norm_num [exDiarC3])
      (by rw [List.get_of_eq hsorted]
          show (exDiarC3.get ⟨1, _⟩).speaker = some "S0"
          decide)
    rw [h]
    decide
  · have h := hthm 2 hk2 2 (by norm_num [exDiarC3])
      (by rw [List.get_of_eq hsorted]
          show (exDiarC3.get ⟨2, _⟩).speaker = some "S1"
          decide)
    rw [h]
    decide

/-! ### `src/main.py`: `process_file` fallbacks (empty diarization,
word redistribution) -/

/-- The synthetic segment `process_file` substitutes when diarization
fails or returns no segments:
`{"start": 0.0, "end": 0.0, "speaker": "Unknown", "role": "Спикер",
"text": full_text}`.  Note `end` is `0.0`, not the call duration. -/
def syntheticSeg (full_text : String) : Seg :=
  ⟨0, 0, some "Unknown", some full_text, some "Спикер"⟩

/-- `if not diar_segments: diar_segments = [ ... ]` from `process_file`. -/
def fixEmptyDiar (full_text : String) (diar : List Seg) : List Seg :=
  if diar.isEmpty then [syntheticSeg full_text] else diar

/-- Python `int()` on a float: truncation toward zero. -/
def truncInt (q : ℚ) : ℤ := if 0 ≤ q then ⌊q⌋ else ⌈q⌉

/-- Python `str.split()` (split on whitespace runs, no empty words);
`acc` holds the current word reversed. -/
def splitWordsAux : List Char → List Char → List (List Char)
  | [], acc => if acc.isEmpty then [] else [acc.reverse]
  | c :: cs, acc =>
    if c.isWhitespace then
      if acc.isEmpty then splitWordsAux cs []
      else acc.reverse :: splitWordsAux cs []
    else splitWordsAux cs (c :: acc)

def wordsC (l : List Char) : List (List Char) := splitWordsAux l []

def splitWords (s : String) : List String := (wordsC s.toList).map List.asString

/-- Python `" ".join(l)`. -/
def joinSp : List String → String
  | [] => ""
  | [w] => w
  | w :: ws => w ++ " " ++ joinSp ws

/-- `sum((s.get("end",0) - s.get("start",0)) for s in diar_segments)`
(no clamping here, unlike the per-speaker times). -/
def totalDur (segs : List Seg) : ℚ :=
  segs.foldl (fun acc s => acc + (s.stop - s.start)) 0

/-- `max(1, int(len(words) * part_ratio))` where `part_ratio` is
`dur / total` when `total > 0`, else `1.0 / len(diar_segments)`. -/
def takeFor (total : ℚ) (n wn : ℕ) (s : Seg) : ℕ :=
  (max 1 (truncInt ((wn : ℚ) *
    (if 0 < total then (s.stop - s.start) / total else 1 / (n : ℚ))))).toNat

/-- The `for s in diar_segments` loop of the redistribution block:
assigns each segment its word slice and advances `idx`; returns the
rewritten segments and the final `idx`. -/
def redistribute_go (ws : List String) (total : ℚ) (n wn : ℕ) :
    List Seg → ℕ → List Seg × ℕ
  | [], idx => ([], idx)
  | s :: rest, idx =>
    let tk := takeFor total n wn s
    let part := joinSp ((ws.drop idx).take tk)
    let r := redistribute_go ws total n wn rest (idx + tk)
    ({ s with text := some part } :: r.1, r.2)

/-- `diar_segments[-1]["text"] = (... + " " + " ".join(words[idx:])).strip()`. -/
def setLastText (r : String) : List Seg → List Seg
  | [] => []
  | [s] => [{ s with text := some (stripS ((s.text.getD "") ++ " " ++ r)) }]
  | s :: rest => s :: setLastText r rest

/-- `all(not (s.get("text") or "").strip() for s in diar_segments)`. -/
def blankTexts (segs : List Seg) : Bool :=
  segs.all fun s => decide (stripS (s.text.getD "") = "")

/-- Embedding of the word-redistribution block of `process_file`
(src/main.py lines 277-290): when every segment text is blank and the
full transcript is non-empty, each segment receives
`max(1, int(len(words) * part_ratio))` words consumed left to right
(`total = sum(...) or 1.0` models Python truthiness), and any remaining
words are appended to the last segment, stripped. -/
def redistribute (full_text : String) (segs : List Seg) : List Seg :=
  if segs.isEmpty = false ∧ blankTexts segs = true ∧ full_text ≠ "" then
    let total0 := totalDur segs
    let total := if total0 = 0 then 1 else total0
    let ws := splitWords full_text
    let r := redistribute_go ws total segs.length ws.length segs 0
    if r.2 < ws.length then setLastText (joinSp (ws.drop r.2)) r.1 else r.1
  else segs

/-- The analysis-relevant slice of `process_file`: empty-diarization
fallback, whisper-to-diarization alignment, role assignment, word
redistribution. -/
def process_align (full_text : String) (diar : List Seg) (wh : List WSeg) :
    List Seg :=
  redistribute full_text
    (assign_roles_by_policy (map_whisper_to_diar (fixEmptyDiar full_text diar) wh) wh)

/-- `process_file` receives `(diar_segments, duration)` from the diarizer
and discards the duration (`diar_segments, _ = diarizer.diarize(...)`). -/
def process_align_full (full_text : String) (diarOut : List Seg × ℚ)
    (wh : List WSeg) : List Seg :=
  process_align full_text diarOut.1 wh

theorem ovAt_synth (ft : String) (w : WSeg) :
    ∀ j, ovAt [syntheticSeg ft] w j ≤ 0 := by
  intro j
  cases j with
  | zero =>
    have h1 : min w.stop 0 - max w.start 0 ≤ 0 := by
      have := le_trans (min_le_right w.stop 0) (le_max_right w.start 0)
      exact sub_nonpos.mpr this
    have : ovAt [syntheticSeg ft] w 0 = max 0 (min w.stop 0 - max w.start 0) := rfl
    rw [this, max_eq_left h1]
  | succ j' => simp [ovAt, syntheticSeg]

theorem assignTarget_synth (ft : String) (w : WSeg) :
    assignTarget [syntheticSeg ft] w = (none, 0) := by
  rcases assignTarget_cases [syntheticSeg ft] w with h | ⟨k, hk, _, h2, _, _⟩
  · exact h
  · exact absurd (lt_of_lt_of_le h2 (ovAt_synth ft w k)) (lt_irrefl 0)

theorem stepWS_synth (ft : String) (w : WSeg) :
    stepWS [syntheticSeg ft] w = [syntheticSeg ft] := by
  rw [stepWS, assignTarget_synth ft w]

theorem foldl_stepWS_const (wh : List WSeg) (l : List Seg)
    (h : ∀ w ∈ wh, stepWS l w = l) : wh.foldl stepWS l = l := by
  induction wh with
  | nil => rfl
  | cons w ws ih =>
    rw [List.foldl_cons, h w (by simp)]
    exact ih fun w' hw' => h w' (by simp [hw'])

theorem map_whisper_synth (ft : String) (wh : List WSeg) :
    map_whisper_to_diar [syntheticSeg ft] wh = [syntheticSeg ft] := by
  rw [map_whisper_to_diar, if_neg (by simp)]
  have hmap : ([syntheticSeg ft]).map setdefaultText = [syntheticSeg ft] := rfl
  rw [hmap]
  exact foldl_stepWS_const wh _ fun w _ => stepWS_synth ft w

theorem autoTag_synth (ft : String) (wh : List WSeg) :
    autoTagPhase [syntheticSeg ft] wh = ([syntheticSeg ft], none) := by
  rw [autoTagPhase]
  cases hdet : detect_autoanswer wh with
  | none => rfl
  | some wsa =>
    simp only [assignTarget_synth ft ⟨wsa.start, wsa.stop, wsa.text⟩]

theorem assign_roles_synth (ft : String) (wh : List WSeg) :
    assign_roles_by_policy [syntheticSeg ft] wh =
      [⟨0, 0, some "Unknown", some ft, some "Менеджер"⟩] := by
  have hrm : rolesMapOf [syntheticSeg ft] wh = [("Unknown", "Менеджер")] := by
    rw [rolesMapOf, autoTag_synth ft wh]
    rfl
  rw [assign_roles_by_policy, if_neg (by simp), autoTag_synth ft wh]
  simp only [List.map_cons, List.map_nil]
  rw [if_neg (show ¬(syntheticSeg ft).role = some "Автоответчик" from by
    rw [show (syntheticSeg ft).role = some "Спикер" from rfl]
    decide)]
  rw [hrm]
  rfl

theorem redistribute_keep (ft : String) (s : Seg) (hs : s.text = some ft)
    (hft : ft = "" ∨ stripS ft ≠ "") : redistribute ft [s] = [s] := by
  rw [redistribute]
  rcases hft with h | h
  · rw [if_neg]
    intro hc
    exact hc.2.2 h
  · rw [if_neg]
    intro hc
    have := hc.2.1
    rw [blankTexts] at this
    simp only [List.all_cons, List.all_nil, Bool.and_true, hs] at this
    simp only [Option.getD_some, decide_eq_true_eq] at this
    exact h this

/-- Counterexample to claim C5 as stated: for a call of duration 10 with
an empty diarization list, the pipeline's single synthetic segment is
`(0, 0)` — it does not span the call duration (its end is 0, not 10):
the duration returned by the diarizer is discarded by `process_file`. -/
theorem C5_counterexample :
    process_align_full "привет мир" ([], 10) [] =
      [⟨0, 0, some "Unknown", some "привет мир", some "Менеджер"⟩] ∧
    (0 : ℚ) ≠ 10 := by
  constructor
  · rw [process_align_full, process_align]
    rw [show fixEmptyDiar "привет мир" ([], (10 : ℚ)).1 = [syntheticSeg "привет мир"]
      from rfl]
    rw [map_whisper_synth, assign_roles_synth]
    exact redistribute_keep _ _ rfl (Or.inr (by decide))
  · norm_num

/-- Claim C5 (amended): if the diarization list is empty, the pipeline
produces exactly one synthetic segment with `start = end = 0.0` (a
zero-length span — not the whole call duration, which is discarded),
carrying all transcript text and speaker_key "Unknown" (and role
"Менеджер" after role assignment), for any whisper segments and any
transcript that is empty or not pure whitespace. -/
theorem C5_empty_diar_synthetic (full_text : String) (wh : List WSeg)
    (duration : ℚ)
    (hft : full_text = "" ∨ stripS full_text ≠ "") :
    process_align_full full_text ([], duration) wh =
      [⟨0, 0, some "Unknown", some full_text, some "Менеджер"⟩] := by
  rw [process_align_full, process_align]
  rw [show fixEmptyDiar full_text ([], duration).1 = [syntheticSeg full_text]
    from rfl]
  rw [map_whisper_synth, assign_roles_synth]
  exact redistribute_keep _ _ rfl hft

/-- Witness for C5 at a concrete input: duration 7, one whisper segment. -/
theorem C5_witness :
    process_align_full "hi" ([], 7) [⟨1, 2, "hi"⟩] =
      [⟨0, 0, some "Unknown", some "hi", some "Менеджер"⟩] :=
  C5_empty_diar_synthetic "hi" [⟨1, 2, "hi"⟩] 7 (Or.inr (by decide))

/-! ### Word-splitting lemmas (for the redistribution claim) -/

theorem splitWordsAux_all_ws (w : List Char) (hw : ∀ c ∈ w, c.isWhitespace)
    (acc : List Char) :
    splitWordsAux w acc = if acc.isEmpty then [] else [acc.reverse] := by
  induction w generalizing acc with
  | nil => rfl
  | cons c cs ih =>
    have hc : c.isWhitespace := hw c (by simp)
    have hw' : ∀ d ∈ cs, d.isWhitespace := fun d hd => hw d (by simp [hd])
    simp only [splitWordsAux]
    rw [if_pos hc]
    by_cases ha : acc.isEmpty
    · rw [if_pos ha, if_pos ha, ih hw']
      rfl
    · rw [if_neg ha, if_neg ha, ih hw']
      rfl

theorem splitWordsAux_append_ws (a w : List Char)
    (hw : ∀ c ∈ w, c.isWhitespace) (acc : List Char) :
    splitWordsAux (a ++ w) acc = splitWordsAux a acc := by
  induction a generalizing acc with
  | nil =>
    rw [List.nil_append, splitWordsAux_all_ws w hw acc]
    rfl
  | cons c cs ih =>
    simp only [List.cons_append, splitWordsAux, List.append_eq]
    by_cases hc : c.isWhitespace
    · rw [if_pos hc, if_pos hc]
      by_cases ha : acc.isEmpty
      · rw [if_pos ha, if_pos ha, ih]
      · rw [if_neg ha, if_neg ha, ih]
    · rw [if_neg hc, if_neg hc, ih]

theorem splitWordsAux_ws_cons (a b : List Char) (c : Char) (hc : c.isWhitespace)
    (acc : List Char) :
    splitWordsAux (a ++ c :: b) acc = splitWordsAux a acc ++ wordsC b := by
  induction a generalizing acc with
  | nil =>
    simp only [List.nil_append, splitWordsAux, List.append_eq]
    rw [if_pos hc]
    by_cases ha : acc.isEmpty
    · rw [if_pos ha, if_pos ha, List.nil_append]
      rfl
    · rw [if_neg ha, if_neg ha]
      rfl
  | cons d a' ih =>
    simp only [List.cons_append, splitWordsAux, List.append_eq]
    by_cases hd : d.isWhitespace
    · rw [if_pos hd, if_pos hd]
      by_cases ha : acc.isEmpty
      · rw [if_pos ha, if_pos ha]
        exact ih []
      · rw [if_neg ha, if_neg ha, ih, List.cons_append]
    · rw [if_neg hd, if_neg hd]
      exact ih (d :: acc)

theorem splitWordsAux_no_ws (w : List Char) (hw : ∀ c ∈ w, ¬c.isWhitespace)
    (acc : List Char) :
    splitWordsAux w acc =
      if acc.isEmpty ∧ w.isEmpty then [] else [acc.reverse ++ w] := by
  induction w generalizing acc with
  | nil =>
    rw [splitWordsAux]
    by_cases ha : acc.isEmpty
    · rw [if_pos ha, if_pos ⟨ha, rfl⟩]
    · rw [if_neg ha, if_neg (by simp [ha])]
      simp
  | cons c cs ih =>
    have hc : ¬c.isWhitespace := hw c (by simp)
    have hw' : ∀ d ∈ cs, ¬d.isWhitespace := fun d hd => hw d (by simp [hd])
    simp only [splitWordsAux]
    rw [if_neg hc, ih hw']
    rw [if_neg (by simp), if_neg (by simp)]
    simp

theorem wordsC_single (w : List Char) (hne : w ≠ [])
    (hw : ∀ c ∈ w, ¬c.isWhitespace) : wordsC w = [w] := by
  rw [wordsC, splitWordsAux_no_ws w hw []]
  rw [if_neg (by simp [hne])]
  simp

theorem wordsC_good (l : List Char) :
    ∀ w ∈ wordsC l, w ≠ [] ∧ ∀ c ∈ w, ¬c.isWhitespace := by
  have main : ∀ (m acc : List Char), (∀ c ∈ acc, ¬c.isWhitespace) →
      ∀ w ∈ splitWordsAux m acc, w ≠ [] ∧ ∀ c ∈ w, ¬c.isWhitespace := by
    intro m
    induction m with
    | nil =>
      intro acc hacc w hw
      rw [splitWordsAux] at hw
      by_cases ha : acc.isEmpty
      · rw [if_pos ha] at hw
        cases hw
      · rw [if_neg ha] at hw
        rw [List.mem_singleton] at hw
        subst hw
        refine ⟨by simpa using ha, ?_⟩
        intro c hc
        exact hacc c (List.mem_reverse.mp hc)
    | cons c cs ih =>
      intro acc hacc w hw
      rw [splitWordsAux] at hw
      by_cases hc : c.isWhitespace
      · rw [if_pos hc] at hw
        by_cases ha : acc.isEmpty
        · rw [if_pos ha] at hw
          exact ih [] (by intro d hd; cases hd) w hw
        · rw [if_neg ha] at hw
          rcases List.mem_cons.mp hw with h | h
          · subst h
            refine ⟨by simpa using ha, ?_⟩
            intro d hd
            exact hacc d (List.mem_reverse.mp hd)
          · exact ih [] (by intro d hd; cases hd) w h
      · rw [if_neg hc] at hw
        refine ih (c :: acc) ?_ w hw
        intro d hd
        rcases List.mem_cons.mp hd with h | h
        · rw [h]; exact hc
        · exact hacc d h
  exact main l [] (by intro c hc; cases hc)

theorem wordsC_dropWhile_ws (l : List Char) :
    wordsC (l.dropWhile Char.isWhitespace) = wordsC l := by
  induction l with
  | nil => rfl
  | cons c cs ih =>
    by_cases hc : c.isWhitespace
    · rw [List.dropWhile_cons_of_pos (by simpa using hc), ih]
      rw [wordsC, wordsC, splitWordsAux, if_pos hc]
      rfl
    · rw [List.dropWhile_cons_of_neg (by simpa using hc)]

theorem wordsC_stripChars (l : List Char) : wordsC (stripChars l) = wordsC l := by
  rw [stripChars]
  set l' := l.dropWhile Char.isWhitespace with hl'
  have hdecomp : l' = (l'.reverse.dropWhile Char.isWhitespace).reverse ++
      (l'.reverse.takeWhile Char.isWhitespace).reverse := by
    have h1 : l'.reverse.takeWhile Char.isWhitespace ++
        l'.reverse.dropWhile Char.isWhitespace = l'.reverse :=
      List.takeWhile_append_dropWhile Char.isWhitespace l'.reverse
    have h2 := congrArg List.reverse h1
    rw [List.reverse_append, List.reverse_reverse] at h2
    exact h2.symm
  have hws : ∀ c ∈ (l'.reverse.takeWhile Char.isWhitespace).reverse,
      c.isWhitespace := by
    intro c hc
    have := List.mem_reverse.mp hc
    simpa using List.mem_takeWhile_imp this
  calc wordsC ((l'.reverse.dropWhile Char.isWhitespace).reverse)
      = wordsC ((l'.reverse.dropWhile Char.isWhitespace).reverse ++
          (l'.reverse.takeWhile Char.isWhitespace).reverse) := by
        rw [wordsC, wordsC, splitWordsAux_append_ws _ _ hws]
    _ = wordsC l' := by rw [← hdecomp]
    _ = wordsC l := wordsC_dropWhile_ws l

theorem splitWords_append_sp (a b : String) :
    splitWords (a ++ " " ++ b) = splitWords a ++ splitWords b := by
  have h1 : (a ++ " " ++ b).toList = a.toList ++ ' ' :: b.toList := by
    rw [show (a ++ " " ++ b).toList = (a.toList ++ [' ']) ++ b.toList from rfl,
      List.append_assoc]
    rfl
  rw [splitWords, h1, wordsC, splitWordsAux_ws_cons a.toList b.toList ' '
    (by decide) []]
  rw [List.map_append]
  rfl

theorem splitWords_stripS (s : String) :
    splitWords (stripS s) = splitWords s := by
  have h1 : (stripS s).toList = stripChars s.toList := rfl
  rw [splitWords, h1, wordsC_stripChars]
  rfl

theorem splitWords_word (s w : String) (hw : w ∈ splitWords s) :
    splitWords w = [w] := by
  rw [splitWords] at hw
  rcases List.mem_map.mp hw with ⟨u, hu, hweq⟩
  obtain ⟨hne, hgood⟩ := wordsC_good s.toList u hu
  subst hweq
  have h1 : (u.asString).toList = u := rfl
  rw [splitWords, h1, wordsC_single u hne hgood]
  rfl

theorem splitWords_joinSp (L : List String)
    (h : ∀ w ∈ L, splitWords w = [w]) : splitWords (joinSp L) = L := by
  induction L with
  | nil => rfl
  | cons w ws ih =>
    cases ws with
    | nil =>
      rw [joinSp]
      exact h w (by simp)
    | cons x xs =>
      rw [joinSp, splitWords_append_sp, h w (by simp)]
      rw [ih fun v hv => h v (by simp [hv])]
      rfl
      simp

theorem splitWords_mem_slice (s : String) (a b : ℕ) (w : String)
    (hw : w ∈ ((splitWords s).drop a).take b) : splitWords w = [w] :=
  splitWords_word s w (List.mem_of_mem_drop (List.mem_of_mem_take hw))

/-! ### The redistribution loop, characterised -/

/-- `s.text` of the `i`-th segment, `none` out of range. -/
def textAt (l : List Seg) (i : ℕ) : Option String :=
  match l[i]? with
  | some s => s.text
  | none => none

/-- The words of the `i`-th segment's text (empty out of range). -/
def wordsAt (l : List Seg) (i : ℕ) : List String :=
  match l[i]? with
  | some s => splitWords (s.text.getD "")
  | none => []

def wordsOfSeg (s : Seg) : List String := splitWords (s.text.getD "")

/-- `total` after Python's `or 1.0`. -/
def effTotal (segs : List Seg) : ℚ :=
  if totalDur segs = 0 then 1 else totalDur segs

/-- The number of words segment `s` takes in the redistribution of
`full_text` over `segs`. -/
def tkOf (full_text : String) (segs : List Seg) (s : Seg) : ℕ :=
  takeFor (effTotal segs) segs.length (splitWords full_text).length s

/-- Sum of the takes of the first `i` segments. -/
def offAt (full_text : String) (segs : List Seg) (i : ℕ) : ℕ :=
  ((segs.take i).map (tkOf full_text segs)).sum

theorem redistribute_go_spec (ws : List String) (total : ℚ) (n wn : ℕ) :
    ∀ (l : List Seg) (idx : ℕ),
      (redistribute_go ws total n wn l idx).2 =
        idx + (l.map (takeFor total n wn)).sum ∧
      (redistribute_go ws total n wn l idx).1.length = l.length ∧
      ∀ (i : ℕ) (s : Seg), l[i]? = some s →
        (redistribute_go ws total n wn l idx).1[i]? =
          some { s with text := some (joinSp
            ((ws.drop (idx + ((l.take i).map (takeFor total n wn)).sum)).take
              (takeFor total n wn s))) } := by
  intro l
  induction l with
  | nil =>
    intro idx
    refine ⟨by simp [redistribute_go], by simp [redistribute_go], ?_⟩
    intro i s hs
    rw [List.getElem?_nil] at hs
    cases hs
  | cons s0 rest ih =>
    intro idx
    obtain ⟨ih1, ih2, ih3⟩ := ih (idx + takeFor total n wn s0)
    refine ⟨?_, ?_, ?_⟩
    · rw [redistribute_go]
      simp only [List.map_cons, List.sum_cons]
      rw [ih1]
      ring_nf
    · rw [redistribute_go]
      simp only [List.length_cons, ih2]
    · intro i s hs
      cases i with
      | zero =>
        rw [List.getElem?_cons_zero] at hs
        injection hs with hs
        subst hs
        rw [redistribute_go]
        simp only [List.getElem?_cons_zero, List.take_zero, List.map_nil,
          List.sum_nil, Nat.add_zero]
      | succ i' =>
        rw [List.getElem?_cons_succ] at hs
        rw [redistribute_go]
        simp only [List.getElem?_cons_succ]
        rw [ih3 i' s hs]
        have harith : idx + takeFor total n wn s0 +
            ((rest.take i').map (takeFor total n wn)).sum =
            idx + (((s0 :: rest).take (i' + 1)).map (takeFor total n wn)).sum := by
          simp only [List.take_succ_cons, List.map_cons, List.sum_cons]
          omega
        rw [harith]

theorem setLastText_cons₂ (r : String) (s x : Seg) (xs : List Seg) :
    setLastText r (s :: x :: xs) = s :: setLastText r (x :: xs) := rfl

theorem setLastText_single (r : String) (s : Seg) :
    setLastText r [s] =
      [{ s with text := some (stripS ((s.text.getD "") ++ " " ++ r)) }] := rfl

theorem setLastText_length (r : String) (l : List Seg) :
    (setLastText r l).length = l.length := by
  induction l with
  | nil => rfl
  | cons s rest ih =>
    cases rest with
    | nil => rfl
    | cons x xs =>
      rw [setLastText_cons₂]
      simp only [List.length_cons]
      rw [ih]
      simp

theorem setLastText_getElem?_lt (r : String) (l : List Seg) (i : ℕ)
    (h : i + 1 < l.length) : (setLastText r l)[i]? = l[i]? := by
  induction l generalizing i with
  | nil => cases h
  | cons s rest ih =>
    cases rest with
    | nil =>
      simp only [List.length_cons, List.length_nil] at h
      omega
    | cons x xs =>
      rw [setLastText_cons₂]
      cases i with
      | zero => rw [List.getElem?_cons_zero, List.getElem?_cons_zero]
      | succ i' =>
        rw [List.getElem?_cons_succ, List.getElem?_cons_succ]
        exact ih i' (by simpa using h)

theorem setLastText_last (r : String) (l : List Seg) (hne : l ≠ []) :
    (setLastText r l)[l.length - 1]? = (l[l.length - 1]?).map
      fun s => { s with text := some (stripS ((s.text.getD "") ++ " " ++ r)) } := by
  induction l with
  | nil => exact absurd rfl hne
  | cons s rest ih =>
    cases rest with
    | nil => rfl
    | cons x xs =>
      rw [setLastText_cons₂]
      have hlen : (s :: x :: xs).length - 1 = (x :: xs).length - 1 + 1 := by
        simp only [List.length_cons]
        omega
      rw [hlen, List.getElem?_cons_succ, List.getElem?_cons_succ]
      exact ih (by simp)

theorem setLastText_join (r : String) (l : List Seg) (hne : l ≠ []) :
    ((setLastText r l).map wordsOfSeg).flatten =
      (l.map wordsOfSeg).flatten ++ splitWords r := by
  induction l with
  | nil => exact absurd rfl hne
  | cons s rest ih =>
    cases rest with
    | nil =>
      rw [setLastText_single]
      simp only [List.map_cons, List.map_nil, List.flatten_cons, List.flatten_nil]
      have hws : wordsOfSeg { s with text := some (stripS ((s.text.getD "") ++ " " ++ r)) } = splitWords (stripS ((s.text.getD "") ++ " " ++ r)) := rfl
      rw [hws, splitWords_stripS, splitWords_append_sp]
      simp [wordsOfSeg]
    | cons x xs =>
      rw [setLastText_cons₂]
      simp only [List.map_cons, List.flatten_cons]
      rw [show ((setLastText r (x :: xs)).map wordsOfSeg).flatten =
        ((x :: xs).map wordsOfSeg).flatten ++ splitWords r from ih (by simp)]
      simp [List.append_assoc]

/-- The word slices consumed by the redistribution loop, one per take. -/
def sliceCat (ws : List String) (idx : ℕ) : List ℕ → List String
  | [] => []
  | t :: ts => ((ws.drop idx).take t) ++ sliceCat ws (idx + t) ts

theorem sliceCat_append_drop (ws : List String) :
    ∀ (ts : List ℕ) (idx : ℕ),
      sliceCat ws idx ts ++ ws.drop (idx + ts.sum) = ws.drop idx := by
  intro ts
  induction ts with
  | nil => intro idx; simp [sliceCat]
  | cons t ts ih =>
    intro idx
    rw [sliceCat, List.append_assoc]
    have h1 : idx + (t :: ts).sum = (idx + t) + ts.sum := by
      simp only [List.sum_cons]
      omega
    rw [h1, ih (idx + t)]
    have h2 : ws.drop (idx + t) = (ws.drop idx).drop t := by
      rw [List.drop_drop]
    rw [h2, List.take_append_drop]

theorem redistribute_go_join (ws : List String) (total : ℚ) (n wn : ℕ)
    (hgood : ∀ w ∈ ws, splitWords w = [w]) :
    ∀ (l : List Seg) (idx : ℕ),
    ((redistribute_go ws total n wn l idx).1.map wordsOfSeg).flatten =
      sliceCat ws idx (l.map (takeFor total n wn)) := by
  intro l
  induction l with
  | nil => intro idx; rfl
  | cons s rest ih =>
    intro idx
    rw [redistribute_go]
    simp only [List.map_cons, List.flatten_cons, sliceCat]
    rw [ih (idx + takeFor total n wn s)]
    have hws : wordsOfSeg { s with text := some (joinSp ((ws.drop idx).take (takeFor total n wn s))) } = splitWords (joinSp ((ws.drop idx).take (takeFor total n wn s))) := rfl
    rw [hws]
    rw [splitWords_joinSp _ fun w hw =>
      hgood w (List.mem_of_mem_drop (List.mem_of_mem_take hw))]

theorem redistribute_eq (full_text : String) (segs : List Seg)
    (h : segs.isEmpty = false ∧ blankTexts segs = true ∧ full_text ≠ "") :
    redistribute full_text segs =
      if (redistribute_go (splitWords full_text) (effTotal segs) segs.length
            (splitWords full_text).length segs 0).2 < (splitWords full_text).length
      then setLastText (joinSp ((splitWords full_text).drop
            (redistribute_go (splitWords full_text) (effTotal segs) segs.length
              (splitWords full_text).length segs 0).2))
          (redistribute_go (splitWords full_text) (effTotal segs) segs.length
            (splitWords full_text).length segs 0).1
      else (redistribute_go (splitWords full_text) (effTotal segs) segs.length
            (splitWords full_text).length segs 0).1 := by
  rw [redistribute, if_pos h]
  rfl

theorem sum_map_last (f : Seg → ℕ) (l : List Seg) (s : Seg)
    (h : l[l.length - 1]? = some s) :
    (l.map f).sum = ((l.take (l.length - 1)).map f).sum + f s := by
  induction l with
  | nil => cases h
  | cons a rest ih =>
    cases rest with
    | nil =>
      simp at h
      subst h
      simp
    | cons b t =>
      have hidx : (a :: b :: t).length - 1 = (b :: t).length - 1 + 1 := by
        simp only [List.length_cons]
        omega
      rw [hidx, List.getElem?_cons_succ] at h
      have hrec := ih h
      rw [hidx]
      have hsum : (List.map f (a :: b :: t)).sum =
          f a + (List.map f (b :: t)).sum := by simp
      rw [hsum, hrec, List.take_succ_cons]
      simp only [List.map_cons, List.sum_cons]
      omega

/-- C6 (amended): when every aligned segment text is blank and the transcript
is non-empty, the transcript's words are dealt out left to right, segment `i`
receiving `max(1, int(len(words) * share_i))` words — truncation with a
one-word floor, not `round` — where `share_i` is `dur_i / total` (or `1/n`
when the summed duration is zero); the last segment also receives every word
left over, and the concatenation of all segment words is exactly the
transcript's word list, so no word is discarded. -/
theorem C6_redistribute_words (full_text : String) (segs : List Seg)
    (hne : segs.isEmpty = false) (hbl : blankTexts segs = true)
    (hft : full_text ≠ "") :
    (redistribute full_text segs).length = segs.length ∧
    (∀ (i : ℕ) (s : Seg), segs[i]? = some s → i + 1 < segs.length →
      wordsAt (redistribute full_text segs) i =
        ((splitWords full_text).drop (offAt full_text segs i)).take
          (tkOf full_text segs s)) ∧
    wordsAt (redistribute full_text segs) (segs.length - 1) =
      (splitWords full_text).drop (offAt full_text segs (segs.length - 1)) ∧
    ((redistribute full_text segs).map wordsOfSeg).flatten =
      splitWords full_text := by
  have hsegs_ne : segs ≠ [] := by
    intro h
    rw [h] at hne
    simp at hne
  obtain ⟨hg2, hg1, hg3⟩ := redistribute_go_spec (splitWords full_text)
    (effTotal segs) segs.length (splitWords full_text).length segs 0
  have hjoin := redistribute_go_join (splitWords full_text) (effTotal segs)
    segs.length (splitWords full_text).length
    (fun w hw => splitWords_word full_text w hw) segs 0
  have htkeq : takeFor (effTotal segs) segs.length
      (splitWords full_text).length = tkOf full_text segs := rfl
  rw [htkeq] at hg2 hg3 hjoin
  rw [redistribute_eq full_text segs ⟨hne, hbl, hft⟩]
  set R := redistribute_go (splitWords full_text) (effTotal segs) segs.length
    (splitWords full_text).length segs 0 with hR
  have hpos : 0 < segs.length := List.length_pos.mpr hsegs_ne
  have hlt : segs.length - 1 < segs.length := by omega
  obtain ⟨slast, hslast⟩ : ∃ s, segs[segs.length - 1]? = some s :=
    ⟨_, List.getElem?_eq_getElem hlt⟩
  have hR2 : R.2 = offAt full_text segs (segs.length - 1) +
      tkOf full_text segs slast := by
    rw [hg2, sum_map_last (tkOf full_text segs) segs slast hslast]
    rw [show ((segs.take (segs.length - 1)).map (tkOf full_text segs)).sum =
      offAt full_text segs (segs.length - 1) from rfl]
    omega
  by_cases hc : R.2 < (splitWords full_text).length
  · rw [if_pos hc]
    have hne1 : R.1 ≠ [] := by
      intro h0
      rw [h0] at hg1
      simp at hg1
      exact hsegs_ne (List.length_eq_zero.mp hg1.symm)
    refine ⟨?_, ?_, ?_, ?_⟩
    · rw [setLastText_length, hg1]
    · intro i s hsi hilt
      rw [wordsAt, setLastText_getElem?_lt
        (joinSp (List.drop R.2 (splitWords full_text))) R.1 i
        (by rw [hg1]; exact hilt), hg3 i s hsi]
      simp only [Option.getD_some]
      rw [splitWords_joinSp _
        (fun w hw => splitWords_mem_slice full_text _ _ w hw)]
      rw [Nat.zero_add, show (List.map (tkOf full_text segs)
        (List.take i segs)).sum = offAt full_text segs i from rfl]
    · rw [wordsAt]
      have hlast := setLastText_last
        (joinSp (List.drop R.2 (splitWords full_text))) R.1 hne1
      rw [hg1] at hlast
      rw [hlast, hg3 _ slast hslast]
      simp only [Option.map_some', Option.getD_some]
      rw [splitWords_stripS, splitWords_append_sp]
      rw [splitWords_joinSp _
        (fun w hw => splitWords_mem_slice full_text _ _ w hw)]
      rw [splitWords_joinSp _
        (fun w hw => splitWords_word full_text w (List.mem_of_mem_drop hw))]
      rw [hR2, Nat.zero_add, show (List.map (tkOf full_text segs)
        (List.take (segs.length - 1) segs)).sum =
          offAt full_text segs (segs.length - 1) from rfl]
      rw [← List.drop_drop, List.take_append_drop]
    · rw [setLastText_join _ _ hne1, hjoin]
      rw [splitWords_joinSp _
        (fun w hw => splitWords_word full_text w (List.mem_of_mem_drop hw))]
      rw [hg2, sliceCat_append_drop, List.drop_zero]
  · rw [if_neg hc]
    have hge : (splitWords full_text).length ≤ R.2 := Nat.le_of_not_lt hc
    refine ⟨hg1, ?_, ?_, ?_⟩
    · intro i s hsi hilt
      rw [wordsAt, hg3 i s hsi]
      simp only [Option.getD_some]
      rw [splitWords_joinSp _
        (fun w hw => splitWords_mem_slice full_text _ _ w hw)]
      rw [Nat.zero_add, show (List.map (tkOf full_text segs)
        (List.take i segs)).sum = offAt full_text segs i from rfl]
    · rw [wordsAt, hg3 _ slast hslast]
      simp only [Option.getD_some]
      rw [splitWords_joinSp _
        (fun w hw => splitWords_mem_slice full_text _ _ w hw)]
      rw [Nat.zero_add, show (List.map (tkOf full_text segs)
        (List.take (segs.length - 1) segs)).sum =
          offAt full_text segs (segs.length - 1) from rfl]
      apply List.take_of_length_le
      rw [List.length_drop]
      omega
    · rw [hjoin]
      have h0 : (splitWords full_text).drop
          (0 + ((segs.map (tkOf full_text segs)).sum)) = [] := by
        apply List.drop_eq_nil_of_le
        rw [← hg2]
        exact hge
      have hcat := sliceCat_append_drop (splitWords full_text)
        (segs.map (tkOf full_text segs)) 0
      rw [h0, List.append_nil, List.drop_zero] at hcat
      exact hcat

/-! ### C6: the spec's `round`-based distribution, for comparison -/

/-- Rounding to the nearest integer (the `round` of the claim's wording;
the counterexample below only evaluates it on exact integers, where every
rounding convention agrees). -/
def qround (q : ℚ) : ℤ := ⌊q + 1 / 2⌋

/-- Word count per the claim's wording: `round(totalWords * duration_i / totalDuration)`. -/
def roundFor (total : ℚ) (wn : ℕ) (s : Seg) : ℕ :=
  (qround ((wn : ℚ) * ((s.stop - s.start) / total))).toNat

/-- The claim's distribution loop: identical to `redistribute_go` except that
each segment receives `roundFor` words instead of `max(1, int(...))`. -/
def redistribute_round_go (ws : List String) (total : ℚ) (wn : ℕ) :
    List Seg → ℕ → List Seg × ℕ
  | [], idx => ([], idx)
  | s :: rest, idx =>
    let tk := roundFor total wn s
    let part := joinSp ((ws.drop idx).take tk)
    let r := redistribute_round_go ws total wn rest (idx + tk)
    ({ s with text := some part } :: r.1, r.2)

/-- SPEC-SIDE definition, written from the claim's words rather than the
source: distribute `round(totalWords * duration_i / totalDuration)` words to
segment `i`, left to right, remainder to the last segment. -/
def redistribute_round (full_text : String) (segs : List Seg) : List Seg :=
  if segs.isEmpty = false ∧ blankTexts segs = true ∧ full_text ≠ "" then
    if (redistribute_round_go (splitWords full_text) (totalDur segs)
          (splitWords full_text).length segs 0).2 < (splitWords full_text).length
    then setLastText (joinSp ((splitWords full_text).drop
          (redistribute_round_go (splitWords full_text) (totalDur segs)
            (splitWords full_text).length segs 0).2))
        (redistribute_round_go (splitWords full_text) (totalDur segs)
          (splitWords full_text).length segs 0).1
    else (redistribute_round_go (splitWords full_text) (totalDur segs)
          (splitWords full_text).length segs 0).1
  else segs

/-- A zero-length first segment: the code hands it `max(1, int(0)) = 1` word,
the spec's `round` hands it `0`. -/
def exS0C6 : Seg := ⟨0, 0, some "A", some "", none⟩

def exS1C6 : Seg := ⟨0, 10, some "B", some "", none⟩

/-- C6 — counterexample to the claimed `round(totalWords * dur_i/totalDur)`
word counts: for segments of durations 0 and 10 and the four-word transcript
"w1 w2 w3 w4", the code's `max(1, int(...))` hands the zero-length segment
one word ("w1") and the other segment the remaining three, whereas the
claim's rounding hands the zero-length segment no word at all; the two
outputs differ. -/
theorem C6_counterexample :
    (redistribute "w1 w2 w3 w4" [exS0C6, exS1C6]).map Seg.text =
      [some "w1", some "w2 w3 w4"] ∧
    (redistribute_round "w1 w2 w3 w4" [exS0C6, exS1C6]).map Seg.text =
      [some "", some "w1 w2 w3 w4"] ∧
    (redistribute "w1 w2 w3 w4" [exS0C6, exS1C6]).map Seg.text ≠
      (redistribute_round "w1 w2 w3 w4" [exS0C6, exS1C6]).map Seg.text := by
  have hws : splitWords "w1 w2 w3 w4" = ["w1", "w2", "w3", "w4"] := by decide
  have htot : totalDur [exS0C6, exS1C6] = 10 := by
    simp only [totalDur, List.foldl, exS0C6, exS1C6]
    norm_num
  have heff : effTotal [exS0C6, exS1C6] = 10 := by
    rw [effTotal, htot]
    norm_num
  have hgrd : ([exS0C6, exS1C6] : List Seg).isEmpty = false ∧
      blankTexts [exS0C6, exS1C6] = true ∧ ("w1 w2 w3 w4" : String) ≠ "" :=
    ⟨rfl, by decide, by decide⟩
  have htk0 : takeFor 10 2 4 exS0C6 = 1 := by
    norm_num [takeFor, truncInt, exS0C6]
  have htk1 : takeFor 10 2 4 exS1C6 = 4 := by
    norm_num [takeFor, truncInt, exS1C6]
    decide
  have hgo : redistribute_go ["w1", "w2", "w3", "w4"] 10 2 4 [exS0C6, exS1C6] 0 =
      ([⟨0, 0, some "A", some "w1", none⟩,
        ⟨0, 10, some "B", some "w2 w3 w4", none⟩], 5) := by
    simp only [redistribute_go, htk0, htk1]
    decide
  have hred : redistribute "w1 w2 w3 w4" [exS0C6, exS1C6] =
      [⟨0, 0, some "A", some "w1", none⟩,
       ⟨0, 10, some "B", some "w2 w3 w4", none⟩] := by
    rw [redistribute_eq _ _ hgrd, hws,
      show ([exS0C6, exS1C6] : List Seg).length = 2 from rfl,
      show (["w1", "w2", "w3", "w4"] : List String).length = 4 from rfl,
      heff, hgo]
    norm_num
  have hrtk0 : roundFor 10 4 exS0C6 = 0 := by
    norm_num [roundFor, qround, exS0C6]
  have hrtk1 : roundFor 10 4 exS1C6 = 4 := by
    norm_num [roundFor, qround, exS1C6]
    decide
  have hrgo : redistribute_round_go ["w1", "w2", "w3", "w4"] 10 4
      [exS0C6, exS1C6] 0 =
      ([⟨0, 0, some "A", some "", none⟩,
        ⟨0, 10, some "B", some "w1 w2 w3 w4", none⟩], 4) := by
    simp only [redistribute_round_go, hrtk0, hrtk1]
    decide
  have hredr : redistribute_round "w1 w2 w3 w4" [exS0C6, exS1C6] =
      [⟨0, 0, some "A", some "", none⟩,
       ⟨0, 10, some "B", some "w1 w2 w3 w4", none⟩] := by
    rw [redistribute_round, if_pos hgrd, hws, htot,
      show (["w1", "w2", "w3", "w4"] : List String).length = 4 from rfl, hrgo]
    norm_num
  refine ⟨?_, ?_, ?_⟩
  · rw [hred]
    rfl
  · rw [hredr]
    rfl
  · rw [hred, hredr]
    decide

def exW0C6 : Seg := ⟨0, 1, some "A", some "", none⟩

def exW1C6 : Seg := ⟨1, 10, some "B", some "", none⟩

def exFtC6 : String := "u1 u2 u3 u4 u5 u6 u7 u8 u9 u10"

theorem C6_witness :
    ([exW0C6, exW1C6] : List Seg).isEmpty = false ∧
    blankTexts [exW0C6, exW1C6] = true ∧ exFtC6 ≠ "" ∧
    ((redistribute exFtC6 [exW0C6, exW1C6]).length =
        ([exW0C6, exW1C6] : List Seg).length ∧
      (∀ (i : ℕ) (s : Seg), ([exW0C6, exW1C6] : List Seg)[i]? = some s →
        i + 1 < ([exW0C6, exW1C6] : List Seg).length →
        wordsAt (redistribute exFtC6 [exW0C6, exW1C6]) i =
          ((splitWords exFtC6).drop (offAt exFtC6 [exW0C6, exW1C6] i)).take
            (tkOf exFtC6 [exW0C6, exW1C6] s)) ∧
      wordsAt (redistribute exFtC6 [exW0C6, exW1C6])
          (([exW0C6, exW1C6] : List Seg).length - 1) =
        (splitWords exFtC6).drop (offAt exFtC6 [exW0C6, exW1C6]
          (([exW0C6, exW1C6] : List Seg).length - 1)) ∧
      ((redistribute exFtC6 [exW0C6, exW1C6]).map wordsOfSeg).flatten =
        splitWords exFtC6) :=
  ⟨rfl, by decide, by decide,
    C6_redistribute_words exFtC6 [exW0C6, exW1C6] rfl (by decide) (by decide)⟩

/-! ### C7: the recording-polling loop of `process_call` (src/bitrix_main.py) -/

/-- Python truthiness of an optional string (`None` and `""` are falsy). -/
def truthyS (s : Option String) : Bool :=
  match s with
  | none => false
  | some v => decide (v ≠ "")

/-- One entry of `activity["FILES"]`, with its `id` and `FILE_ID` keys. -/
structure BxFile where
  idKey : Option String
  fileIdKey : Option String

/-- The `SETTINGS` keys probed by `extract_file_id`. -/
structure BxSettings where
  fileId : Option String
  recordId : Option String
  callRecordId : Option String
  callRecordFileId : Option String

/-- The activity fields consumed by the polling loop and `extract_file_id`. -/
structure Activity where
  typeId : String
  files : List BxFile
  storageElementIds : List String
  settings : BxSettings

/-- The `for key in (...)` sweep over `SETTINGS` in `extract_file_id`. -/
def settingsId (st : BxSettings) : Option String :=
  if truthyS st.fileId then st.fileId
  else if truthyS st.recordId then st.recordId
  else if truthyS st.callRecordId then st.callRecordId
  else if truthyS st.callRecordFileId then st.callRecordFileId
  else none

/-- `extract_file_id` (src/bitrix_main.py lines 100-117): `FILES[0]`'s `id`
or `FILE_ID` if truthy, else `STORAGE_ELEMENT_IDS[0]` unconditionally if the
list is non-empty, else the first truthy `SETTINGS` key, else `None`. -/
def extract_file_id (a : Activity) : Option String :=
  let fromFiles : Option String :=
    match a.files with
    | [] => none
    | f :: _ =>
      let fid := if truthyS f.idKey then f.idKey else f.fileIdKey
      if truthyS fid then fid else none
  if truthyS fromFiles then fromFiles
  else
    match a.storageElementIds with
    | s :: _ => some s
    | [] => settingsId a.settings

def MAX_RETRY : ℕ := 15

def RETRY_DELAY : ℕ := 20

/-- How the polling loop ended: early `return` on a non-call activity,
`break` with a truthy file id, or all attempts exhausted (after which
`if not file_id: return` fires). -/
inductive PollResult where
  | notACall : PollResult
  | found : Activity → String → PollResult
  | exhausted : PollResult

/-- Outcome of the loop plus how many times it fetched the activity and how
many times it slept `RETRY_DELAY` seconds. -/
structure PollOut where
  result : PollResult
  fetches : ℕ
  sleeps : ℕ

/-- The `for attempt in range(1, MAX_RETRY + 1)` loop of `process_call`
(src/bitrix_main.py lines 175-204), with the attempt-indexed oracle `fetch`
standing for `client.get_call_activity`: a failed fetch sleeps and retries;
a non-call activity returns at once; a truthy extracted file id breaks;
otherwise sleep and retry. -/
def pollLoop (fetch : ℕ → Option Activity) : ℕ → ℕ → PollOut
  | 0, _ => ⟨.exhausted, 0, 0⟩
  | rem + 1, k =>
    match fetch k with
    | none =>
      let r := pollLoop fetch rem (k + 1)
      ⟨r.result, r.fetches + 1, r.sleeps + 1⟩
    | some a =>
      if a.typeId = "2" then
        if truthyS (extract_file_id a) then
          ⟨.found a ((extract_file_id a).getD ""), 1, 0⟩
        else
          let r := pollLoop fetch rem (k + 1)
          ⟨r.result, r.fetches + 1, r.sleeps + 1⟩
      else ⟨.notACall, 1, 0⟩

/-- The polling phase of `process_call`: attempts numbered 1..MAX_RETRY. -/
def process_call_poll (fetch : ℕ → Option Activity) : PollOut :=
  pollLoop fetch MAX_RETRY 1

/-- The rest of `process_call`, abstracted: a CRM comment can only be
produced by the pipeline downstream of a successful poll; every other poll
outcome returns before `client.add_comment` is reached. -/
def process_call_comment (fetch : ℕ → Option Activity)
    (downstream : Activity → String → Option String) : Option String :=
  match (process_call_poll fetch).result with
  | .found a fid => downstream a fid
  | _ => none

theorem pollLoop_counts_le (fetch : ℕ → Option Activity) :
    ∀ (rem k : ℕ), (pollLoop fetch rem k).fetches ≤ rem ∧
      (pollLoop fetch rem k).sleeps ≤ rem := by
  intro rem
  induction rem with
  | zero => intro k; exact ⟨Nat.le_refl 0, Nat.le_refl 0⟩
  | succ rem ih =>
    intro k
    obtain ⟨h1, h2⟩ := ih (k + 1)
    rw [pollLoop]
    cases hf : fetch k with
    | none =>
      refine ⟨?_, ?_⟩ <;> simp only [] <;> omega
    | some a =>
      simp only []
      by_cases ht : a.typeId = "2"
      · rw [if_pos ht]
        by_cases he : truthyS (extract_file_id a) = true
        · rw [if_pos he]
          refine ⟨?_, ?_⟩ <;> simp only [] <;> omega
        · rw [if_neg he]
          refine ⟨?_, ?_⟩ <;> simp only [] <;> omega
      · rw [if_neg ht]
        refine ⟨?_, ?_⟩ <;> simp only [] <;> omega

theorem pollLoop_allfail (fetch : ℕ → Option Activity)
    (h : ∀ (k : ℕ) (a : Activity), fetch k = some a →
      a.typeId = "2" ∧ truthyS (extract_file_id a) = false) :
    ∀ (rem k : ℕ), pollLoop fetch rem k = ⟨.exhausted, rem, rem⟩ := by
  intro rem
  induction rem with
  | zero => intro k; rfl
  | succ rem ih =>
    intro k
    rw [pollLoop]
    cases hf : fetch k with
    | none =>
      simp only [ih (k + 1)]
    | some a =>
      obtain ⟨ht, he⟩ := h k a hf
      simp only [if_pos ht, he, ih (k + 1)]
      rw [if_neg Bool.false_ne_true]

/-- C7: the polling loop of `process_call` fetches the activity at most
`MAX_RETRY = 15` times, sleeps `RETRY_DELAY = 20` seconds at most once per
attempt, and if every fetch either fails or yields a call activity with no
truthy recording id, all 15 attempts are consumed (each followed by a sleep),
the loop ends exhausted, and no CRM comment is posted. -/
theorem C7_process_call_retry (fetch : ℕ → Option Activity)
    (downstream : Activity → String → Option String) :
    MAX_RETRY = 15 ∧ RETRY_DELAY = 20 ∧
    (process_call_poll fetch).fetches ≤ MAX_RETRY ∧
    (process_call_poll fetch).sleeps ≤ MAX_RETRY ∧
    ((∀ (k : ℕ) (a : Activity), fetch k = some a →
        a.typeId = "2" ∧ truthyS (extract_file_id a) = false) →
      process_call_poll fetch =
        ⟨PollResult.exhausted, MAX_RETRY, MAX_RETRY⟩ ∧
      process_call_comment fetch downstream = none) := by
  obtain ⟨h1, h2⟩ := pollLoop_counts_le fetch MAX_RETRY 1
  refine ⟨rfl, rfl, h1, h2, ?_⟩
  intro hall
  have hpoll : process_call_poll fetch =
      ⟨PollResult.exhausted, MAX_RETRY, MAX_RETRY⟩ :=
    pollLoop_allfail fetch hall MAX_RETRY 1
  refine ⟨hpoll, ?_⟩
  rw [process_call_comment, hpoll]

/-- Concrete run for C7: an oracle that never returns an activity consumes
all fifteen attempts with fifteen sleeps and posts no comment. -/
theorem C7_witness :
    process_call_poll (fun _ => none) =
      ⟨PollResult.exhausted, MAX_RETRY, MAX_RETRY⟩ ∧
    process_call_comment (fun _ => none)
      (fun _ _ => some "Тип звонка: Входящий") = none :=
  (C7_process_call_retry (fun _ => none)
    (fun _ _ => some "Тип звонка: Входящий")).2.2.2.2
    (fun _ _ h => Option.noConfusion h)

/-! ### C8: the `PROCESSING` in-flight set of `process_call` -/

/-- Lifecycle of one `process_call` invocation: submitted, running the
pipeline, bounced off the `PROCESSING` check, or finished (the `finally`
block ran). -/
inductive JobPhase where
  | pending : JobPhase
  | active : JobPhase
  | rejected : JobPhase
  | finished : JobPhase
deriving DecidableEq

structure Job where
  cid : ℕ
  phase : JobPhase
deriving DecidableEq

/-- Global state: the `PROCESSING` set (as a list) and every invocation so
far. -/
structure Sys where
  processing : List ℕ
  jobs : List Job

/-- The atomic transitions of `process_call` around `PROCESSING`, as guarded
by `with LOCK`: a new invocation is submitted; an invocation finds its id in
`PROCESSING` and returns at once (src/bitrix_main.py lines 158-161); an
invocation adds its id and starts the pipeline (line 162); a running
invocation finishes and the `finally` block discards its id (lines 327-329,
on every exit path). -/
inductive Step : Sys → Sys → Prop where
  | spawn (s : Sys) (cid : ℕ) :
      Step s ⟨s.processing, s.jobs ++ [⟨cid, .pending⟩]⟩
  | enter_dup (s : Sys) (i : ℕ) (j : Job) (h : s.jobs[i]? = some j)
      (hp : j.phase = .pending) (hin : j.cid ∈ s.processing) :
      Step s ⟨s.processing, s.jobs.set i ⟨j.cid, .rejected⟩⟩
  | enter_new (s : Sys) (i : ℕ) (j : Job) (h : s.jobs[i]? = some j)
      (hp : j.phase = .pending) (hin : j.cid ∉ s.processing) :
      Step s ⟨s.processing ++ [j.cid], s.jobs.set i ⟨j.cid, .active⟩⟩
  | exit (s : Sys) (i : ℕ) (j : Job) (h : s.jobs[i]? = some j)
      (hp : j.phase = .active) :
      Step s ⟨s.processing.erase j.cid, s.jobs.set i ⟨j.cid, .finished⟩⟩

/-- States reachable from the start-up state (empty `PROCESSING`, no
invocations). -/
inductive Reachable : Sys → Prop where
  | init : Reachable ⟨[], []⟩
  | step {s s' : Sys} : Reachable s → Step s s' → Reachable s'

/-- Is `j` an invocation of call id `cid` currently running the pipeline? -/
def isActiveFor (cid : ℕ) (j : Job) : Bool :=
  decide (j.cid = cid) && decide (j.phase = JobPhase.active)

/-- Number of in-flight pipeline executions for call id `cid`. -/
def countActive (s : Sys) (cid : ℕ) : ℕ :=
  (s.jobs.filter (isActiveFor cid)).length

theorem length_filter_set (p : Job → Bool) :
    ∀ (l : List Job) (i : ℕ) (a b : Job), l[i]? = some a →
      ((l.set i b).filter p).length + (cond (p a) 1 0) =
        (l.filter p).length + (cond (p b) 1 0) := by
  intro l
  induction l with
  | nil => intro i a b h; cases h
  | cons x xs ih =>
    intro i a b h
    cases i with
    | zero =>
      rw [List.getElem?_cons_zero] at h
      injection h with h
      subst h
      rw [List.set_cons_zero]
      cases hb : p b <;> cases hx : p x <;>
        simp [List.filter_cons, hb, hx]
    | succ i' =>
      rw [List.getElem?_cons_succ] at h
      rw [List.set_cons_succ]
      have hrec := ih i' a b h
      cases hx : p x <;> simp [List.filter_cons, hx] <;> omega

theorem countActive_mk (proc : List ℕ) (jobs : List Job) (c : ℕ) :
    countActive ⟨proc, jobs⟩ c = (jobs.filter (isActiveFor c)).length := rfl

theorem processing_invariant (s : Sys) (h : Reachable s) :
    s.processing.Nodup ∧
    ∀ cid : ℕ, countActive s cid = if cid ∈ s.processing then 1 else 0 := by
  induction h with
  | init =>
    refine ⟨List.nodup_nil, fun cid => ?_⟩
    simp [countActive]
  | step hR hS ih =>
    rename_i s0 s1
    obtain ⟨ihN, ihC⟩ := ih
    cases hS with
    | spawn cid =>
      refine ⟨ihN, fun c => ?_⟩
      rw [countActive_mk, List.filter_append]
      have hx : isActiveFor c ⟨cid, .pending⟩ = false := by
        simp [isActiveFor]
      simp only [List.filter_cons, hx, Bool.false_eq_true, if_false,
        List.filter_nil, List.append_nil]
      exact ihC c
    | enter_dup i j hj hp hin =>
      refine ⟨ihN, fun c => ?_⟩
      have key := length_filter_set (isActiveFor c) s0.jobs i j
        ⟨j.cid, .rejected⟩ hj
      have h1 : isActiveFor c j = false := by
        simp [isActiveFor, hp]
      have h2 : isActiveFor c ⟨j.cid, .rejected⟩ = false := by
        simp [isActiveFor]
      rw [h1, h2] at key
      simp only [cond_false, Nat.add_zero] at key
      rw [countActive_mk, key]
      exact ihC c
    | enter_new i j hj hp hin =>
      constructor
      · simp only []
        rw [List.nodup_append]
        exact ⟨ihN, List.nodup_singleton _, by simpa using hin⟩
      · intro c
        have key := length_filter_set (isActiveFor c) s0.jobs i j
          ⟨j.cid, .active⟩ hj
        have h1 : isActiveFor c j = false := by
          simp [isActiveFor, hp]
        rw [h1] at key
        simp only [cond_false, Nat.add_zero] at key
        rw [countActive_mk, key]
        by_cases hc : j.cid = c
        · have h2 : isActiveFor c ⟨j.cid, .active⟩ = true := by
            simp [isActiveFor, hc]
          rw [h2]
          simp only [cond_true]
          have hic : (s0.jobs.filter (isActiveFor c)).length =
              if c ∈ s0.processing then 1 else 0 := ihC c
          rw [if_neg (hc ▸ hin)] at hic
          have hmem : c ∈ s0.processing ++ [j.cid] := by
            simp [hc]
          rw [if_pos hmem]
          omega
        · have h2 : isActiveFor c ⟨j.cid, .active⟩ = false := by
            simp [isActiveFor, hc]
          rw [h2]
          simp only [cond_false, Nat.add_zero]
          have hmem : (c ∈ s0.processing ++ [j.cid]) ↔ c ∈ s0.processing := by
            simp only [List.mem_append, List.mem_singleton, or_iff_left_iff_imp]
            intro heq
            exact absurd heq.symm hc
          simp only [hmem]
          exact ihC c
    | exit i j hj hp =>
      constructor
      · exact ihN.erase _
      · intro c
        have key := length_filter_set (isActiveFor c) s0.jobs i j
          ⟨j.cid, .finished⟩ hj
        have h2 : isActiveFor c ⟨j.cid, .finished⟩ = false := by
          simp [isActiveFor]
        rw [h2] at key
        simp only [cond_false, Nat.add_zero] at key
        rw [countActive_mk]
        by_cases hc : j.cid = c
        · have h1 : isActiveFor c j = true := by
            simp [isActiveFor, hc, hp]
          rw [h1] at key
          simp only [cond_true] at key
          have hic : (s0.jobs.filter (isActiveFor c)).length =
              if c ∈ s0.processing then 1 else 0 := ihC c
          have hnotmem : c ∉ List.erase s0.processing j.cid := by
            intro hx
            rcases (List.Nodup.mem_erase_iff ihN).mp hx with ⟨hne, _⟩
            exact hne hc.symm
          rw [if_neg hnotmem]
          by_cases hm : c ∈ s0.processing
          · rw [if_pos hm] at hic
            omega
          · rw [if_neg hm] at hic
            omega
        · have h1 : isActiveFor c j = false := by
            simp [isActiveFor, hc]
          rw [h1] at key
          simp only [cond_false, Nat.add_zero] at key
          rw [key]
          have hmem : (c ∈ List.erase s0.processing j.cid) ↔
              c ∈ s0.processing := by
            rw [List.Nodup.mem_erase_iff ihN]
            constructor
            · exact fun hx => hx.2
            · exact fun hx => ⟨fun heq => hc heq.symm, hx⟩
          simp only [hmem]
          exact ihC c

/-- C8: in every state reachable by `process_call` invocations, the
`PROCESSING` set holds no duplicates, a call id is in `PROCESSING` exactly
when it has exactly one pipeline execution in flight, and hence at most one
invocation per call id runs the pipeline at any time; an invocation that
finds its id in `PROCESSING` is rejected without running the pipeline, and
the id is removed again on the (unique) exit path of the running job. -/
theorem C8_processing_dedup (s : Sys) (h : Reachable s) :
    s.processing.Nodup ∧
    (∀ cid : ℕ, countActive s cid = if cid ∈ s.processing then 1 else 0) ∧
    (∀ cid : ℕ, countActive s cid ≤ 1) := by
  obtain ⟨h1, h2⟩ := processing_invariant s h
  refine ⟨h1, h2, fun cid => ?_⟩
  rw [h2 cid]
  by_cases hm : cid ∈ s.processing
  · rw [if_pos hm]
  · rw [if_neg hm]
    omega

/-- The doubly-submitted call 7: the first invocation entered the pipeline,
the second bounced off `PROCESSING`. -/
def exSysC8 : Sys := ⟨[7], [⟨7, .active⟩, ⟨7, .rejected⟩]⟩

theorem C8_witness :
    Reachable exSysC8 ∧
    (exSysC8.processing.Nodup ∧
     (∀ cid : ℕ, countActive exSysC8 cid =
        if cid ∈ exSysC8.processing then 1 else 0) ∧
     (∀ cid : ℕ, countActive exSysC8 cid ≤ 1)) := by
  have hr1 : Reachable ⟨[], [⟨7, .pending⟩]⟩ :=
    Reachable.step Reachable.init (Step.spawn ⟨[], []⟩ 7)
  have hr2 : Reachable ⟨[], [⟨7, .pending⟩, ⟨7, .pending⟩]⟩ :=
    Reachable.step hr1 (Step.spawn ⟨[], [⟨7, .pending⟩]⟩ 7)
  have hr3 : Reachable ⟨[7], [⟨7, .active⟩, ⟨7, .pending⟩]⟩ :=
    Reachable.step hr2 (Step.enter_new ⟨[], [⟨7, .pending⟩, ⟨7, .pending⟩]⟩
      0 ⟨7, .pending⟩ rfl rfl (by simp))
  have hreach : Reachable exSysC8 :=
    Reachable.step hr3 (Step.enter_dup ⟨[7], [⟨7, .active⟩, ⟨7, .pending⟩]⟩
      1 ⟨7, .pending⟩ rfl rfl (by simp))
  exact ⟨hreach, C8_processing_dedup exSysC8 hreach⟩
